import Mathlib

/-!
Shallow embedding of `pyincpp::Int` (src/sources/Int.hpp), an arbitrary-precision
signed integer with base-10 little-endian digit storage, together with proofs of
the specification claims about it.

Modelling conventions:
* `digits_` (a `std::vector<signed char>` holding base-10 digits, least
  significant first) is modelled as `List ℕ`.  In every reachable state the
  stored digit values are non-negative, and the one place where the C++ code
  temporarily drives an entry negative (the borrow `a[i+1]--` in `operator-`) is
  translated by the standard equivalent borrow-carrying recursion, see `subLoop`.
* `sign_` (a `signed char` that is 1, 0 or -1) is modelled as `ℤ`.
* C++ `throw` is modelled with `Except String`.
* Loops whose termination is part of what is being verified (the trial
  subtraction in `operator/`, Euclid's loop in `gcd`, the square-and-multiply
  loop in `pow`, Newton's loop in `sqrt`) are modelled with an explicit fuel
  counter; the wrappers instantiate the fuel with a provably sufficient amount
  (or, for `sqrt`, keep it as a parameter because claim C2 is about whether the
  loop exits at all).
-/

namespace Pyincpp

/-- The state of a `pyincpp::Int`: digit vector (base 10, little endian) and
sign (1 positive, -1 negative, 0 zero). -/
structure PInt where
  digits : List ℕ
  sign : ℤ
deriving DecidableEq, Repr

/-- The abstraction of a digit list: its value as a natural number
(little-endian base 10). -/
def fromDigits : List ℕ → ℕ
  | [] => 0
  | d :: ds => d + 10 * fromDigits ds

/-- The integer a `PInt` stands for. -/
def toZ (x : PInt) : ℤ := x.sign * (fromDigits x.digits : ℤ)

/-- Embeds `Int::remove_leading_zeros`: erase the zero digits at the
most-significant (trailing) end of the list.  (The C++ code walks with a
reverse iterator and erases the trailing run of zeros; this recursion produces
exactly that list.) -/
def removeLZ : List ℕ → List ℕ
  | [] => []
  | d :: ds => if removeLZ ds = [] ∧ d = 0 then [] else d :: removeLZ ds

/-- Embeds `Int::add_leading_zeros`: append `n` zeros at the most-significant
end. -/
def addLZ (l : List ℕ) (n : ℕ) : List ℕ := l ++ List.replicate n 0

/-- The canonical zero (`Int()`): empty digit list, sign 0. -/
def zeroI : PInt := ⟨[], 0⟩

/-- The representation invariant of `pyincpp::Int` (§3 of the spec): digits are
base-10 digits, there is no most-significant zero digit, the sign is 0 exactly
for the empty digit list, and the sign is one of 1, 0, -1. -/
def Valid (x : PInt) : Prop :=
  (∀ d ∈ x.digits, d ≤ 9) ∧ x.digits.getLast? ≠ some 0 ∧
    (x.sign = 0 ↔ x.digits = []) ∧ (x.sign = 1 ∨ x.sign = 0 ∨ x.sign = -1)

instance (x : PInt) : Decidable (Valid x) := by
  unfold Valid; infer_instance

/-! ### Basic facts about `fromDigits` and `removeLZ` -/

theorem fromDigits_append (l₁ l₂ : List ℕ) :
    fromDigits (l₁ ++ l₂) = fromDigits l₁ + 10 ^ l₁.length * fromDigits l₂ := by
  induction l₁ with
  | nil => simp [fromDigits]
  | cons d ds ih => simp [fromDigits, ih, pow_succ]; ring

theorem fromDigits_replicate_zero (n : ℕ) : fromDigits (List.replicate n 0) = 0 := by
  induction n with
  | zero => rfl
  | succ n ih => simpa [fromDigits, List.replicate_succ] using ih

theorem fromDigits_addLZ (l : List ℕ) (n : ℕ) : fromDigits (addLZ l n) = fromDigits l := by
  simp [addLZ, fromDigits_append, fromDigits_replicate_zero]

theorem fromDigits_lt (l : List ℕ) (h : ∀ d ∈ l, d ≤ 9) :
    fromDigits l < 10 ^ l.length := by
  induction l with
  | nil => simp [fromDigits]
  | cons d ds ih =>
    have hd : d ≤ 9 := h d (by simp)
    have hds := ih (fun x hx => h x (by simp [hx]))
    simp only [fromDigits, List.length_cons, pow_succ]
    omega

theorem fromDigits_removeLZ (l : List ℕ) : fromDigits (removeLZ l) = fromDigits l := by
  induction l with
  | nil => rfl
  | cons d ds ih =>
    rw [removeLZ]
    split
    · next hc =>
      obtain ⟨h1, h2⟩ := hc
      rw [h1] at ih
      simp only [fromDigits] at ih ⊢
      omega
    · simp only [fromDigits, ih]

theorem removeLZ_mem {l : List ℕ} {d : ℕ} (h : d ∈ removeLZ l) : d ∈ l := by
  induction l with
  | nil => simpa [removeLZ] using h
  | cons e es ih =>
    rw [removeLZ] at h
    by_cases hc : removeLZ es = [] ∧ e = 0
    · rw [if_pos hc] at h
      simp at h
    · rw [if_neg hc] at h
      rcases List.mem_cons.mp h with h | h
      · simp [h]
      · exact List.mem_cons_of_mem _ (ih h)

theorem removeLZ_getLast? (l : List ℕ) : (removeLZ l).getLast? ≠ some 0 := by
  induction l with
  | nil => simp [removeLZ]
  | cons d ds ih =>
    rw [removeLZ]
    by_cases hc : removeLZ ds = [] ∧ d = 0
    · rw [if_pos hc]
      simp
    · rw [if_neg hc]
      rcases h : removeLZ ds with _ | ⟨e, es⟩
      · have hd : ¬d = 0 := fun h0 => hc ⟨h, h0⟩
        simpa using hd
      · rw [h] at ih
        rw [List.getLast?_cons_cons]
        exact ih

theorem removeLZ_eq_nil_iff (l : List ℕ) : removeLZ l = [] ↔ fromDigits l = 0 := by
  constructor
  · intro h
    have := fromDigits_removeLZ l
    rw [h] at this
    simpa [fromDigits] using this.symm
  · intro h
    induction l with
    | nil => rfl
    | cons d ds ih =>
      simp only [fromDigits] at h
      have hd : d = 0 := by omega
      have hds : fromDigits ds = 0 := by omega
      rw [removeLZ, if_pos ⟨ih hds, hd⟩]

theorem removeLZ_of_normalized (l : List ℕ) (h : l.getLast? ≠ some 0) :
    removeLZ l = l := by
  induction l with
  | nil => rfl
  | cons d ds ih =>
    rcases hds : ds with _ | ⟨e, es⟩
    · subst hds
      simp only [List.getLast?_singleton] at h
      rw [removeLZ]
      have : ¬(removeLZ ([] : List ℕ) = [] ∧ d = 0) := by
        rintro ⟨-, h0⟩
        exact h (by rw [h0])
      rw [if_neg this, removeLZ]
    · subst hds
      have hlast : (e :: es).getLast? ≠ some 0 := by
        rwa [List.getLast?_cons_cons] at h
      have hne : removeLZ (e :: es) ≠ [] := by
        rw [ih hlast]
        simp
      rw [removeLZ, if_neg (by rintro ⟨h1, -⟩; exact hne h1), ih hlast]

theorem fromDigits_pos (l : List ℕ) (hne : l ≠ []) (h : l.getLast? ≠ some 0) :
    0 < fromDigits l := by
  by_contra hc
  have h0 : fromDigits l = 0 := by omega
  have := (removeLZ_eq_nil_iff l).mpr h0
  rw [removeLZ_of_normalized l h] at this
  exact hne this

theorem fromDigits_ge (l : List ℕ) (hne : l ≠ []) (h : l.getLast? ≠ some 0) :
    10 ^ (l.length - 1) ≤ fromDigits l := by
  induction l with
  | nil => exact absurd rfl hne
  | cons d ds ih =>
    rcases hds : ds with _ | ⟨e, es⟩
    · subst hds
      simp only [List.getLast?_singleton] at h
      simp only [fromDigits, List.length_singleton]
      have : d ≠ 0 := fun h0 => h (by rw [h0])
      simpa using by omega
    · subst hds
      have hlast : (e :: es).getLast? ≠ some 0 := by
        rwa [List.getLast?_cons_cons] at h
      have hih := ih (by simp) hlast
      simp only [List.length_cons, Nat.add_sub_cancel] at hih ⊢
      have h1 : (10 : ℕ) ^ (es.length + 1) = 10 * 10 ^ es.length := by ring
      have h2 : fromDigits (d :: e :: es) = d + 10 * fromDigits (e :: es) := rfl
      omega

/-- Digit lists with digits ≤ 9 and no leading zero are determined by their
value. -/
theorem fromDigits_inj (l₁ l₂ : List ℕ) (h₁ : ∀ d ∈ l₁, d ≤ 9) (h₂ : ∀ d ∈ l₂, d ≤ 9)
    (n₁ : l₁.getLast? ≠ some 0) (n₂ : l₂.getLast? ≠ some 0)
    (h : fromDigits l₁ = fromDigits l₂) : l₁ = l₂ := by
  induction l₁ generalizing l₂ with
  | nil =>
    rcases l₂ with _ | ⟨e, es⟩
    · rfl
    · exfalso
      have hp := fromDigits_pos (e :: es) (by simp) n₂
      have h0 : fromDigits ([] : List ℕ) = 0 := rfl
      omega
  | cons d ds ih =>
    rcases l₂ with _ | ⟨e, es⟩
    · exfalso
      have hp := fromDigits_pos (d :: ds) (by simp) n₁
      have h0 : fromDigits ([] : List ℕ) = 0 := rfl
      omega
    · simp only [fromDigits] at h
      have hd : d ≤ 9 := h₁ d (by simp)
      have he : e ≤ 9 := h₂ e (by simp)
      have hde : d = e := by omega
      have hrest : fromDigits ds = fromDigits es := by omega
      have hds9 : ∀ x ∈ ds, x ≤ 9 := fun x hx => h₁ x (by simp [hx])
      have hes9 : ∀ x ∈ es, x ≤ 9 := fun x hx => h₂ x (by simp [hx])
      have hdsn : ds.getLast? ≠ some 0 := by
        rcases hds : ds with _ | ⟨f, fs⟩
        · simp
        · rw [hds] at n₁
          rwa [List.getLast?_cons_cons] at n₁
      have hesn : es.getLast? ≠ some 0 := by
        rcases hes : es with _ | ⟨f, fs⟩
        · simp
        · rw [hes] at n₂
          rwa [List.getLast?_cons_cons] at n₂
      rw [hde, ih es hds9 hes9 hdsn hesn hrest]

/-- On valid representations, `toZ` is injective. -/
theorem toZ_inj (x y : PInt) (hx : Valid x) (hy : Valid y) (h : toZ x = toZ y) :
    x = y := by
  obtain ⟨hx9, hxn, hx0, hxs⟩ := hx
  obtain ⟨hy9, hyn, hy0, hys⟩ := hy
  unfold toZ at h
  have key : x.sign = y.sign ∧ fromDigits x.digits = fromDigits y.digits := by
    by_cases hxe : x.digits = []
    · have hxz : x.sign = 0 := hx0.mpr hxe
      by_cases hye : y.digits = []
      · exact ⟨by rw [hxz, hy0.mpr hye], by rw [hxe, hye]⟩
      · exfalso
        have hyp : 0 < fromDigits y.digits := fromDigits_pos _ hye hyn
        have hysn : y.sign ≠ 0 := fun hc => hye (hy0.mp hc)
        rw [hxz, hxe] at h
        simp only [fromDigits, zero_mul, Nat.cast_zero] at h
        rcases hys with h1 | h1 | h1 <;> rw [h1] at h <;> simp at h <;> omega
    · have hxp : 0 < fromDigits x.digits := fromDigits_pos _ hxe hxn
      have hxsn : x.sign ≠ 0 := fun hc => hxe (hx0.mp hc)
      by_cases hye : y.digits = []
      · exfalso
        have hyz : y.sign = 0 := hy0.mpr hye
        rw [hyz, hye] at h
        simp only [fromDigits, zero_mul, Nat.cast_zero] at h
        rcases hxs with h1 | h1 | h1 <;> rw [h1] at h <;> simp at h <;> omega
      · have hyp : 0 < fromDigits y.digits := fromDigits_pos _ hye hyn
        have hysn : y.sign ≠ 0 := fun hc => hye (hy0.mp hc)
        rcases hxs with h1 | h1 | h1
        · rcases hys with h2 | h2 | h2
          · refine ⟨by rw [h1, h2], ?_⟩
            rw [h1, h2] at h
            simp at h
            omega
          · exact absurd h2 hysn
          · exfalso
            rw [h1, h2] at h
            simp at h
            omega
        · exact absurd h1 hxsn
        · rcases hys with h2 | h2 | h2
          · exfalso
            rw [h1, h2] at h
            simp at h
            omega
          · exact absurd h2 hysn
          · refine ⟨by rw [h1, h2], ?_⟩
            rw [h1, h2] at h
            simp at h
            omega
  obtain ⟨hsign, hval⟩ := key
  have hdig : x.digits = y.digits := fromDigits_inj _ _ hx9 hy9 hxn hyn hval
  cases x; cases y
  simp_all

/-! ### Comparison (`Int::operator==`, `Int::operator<=>`) -/

/-- Embeds `Int::operator==`: componentwise equality of sign and digits. -/
def eqI (x y : PInt) : Bool := x.sign == y.sign && x.digits == y.digits

/-- The digit loop of `Int::operator<=>`: walk the two (equal-length) digit
vectors from the most significant digit down; the first position where they
differ decides, with the answer flipped when the common sign is not positive.
The arguments are most-significant-first lists (the loop runs `i` downwards in
the C++ code). -/
def cmpRev (s : ℤ) : List ℕ → List ℕ → ℤ
  | a :: as, b :: bs =>
    if a ≠ b then
      if s = 1 then (if a > b then 1 else -1) else (if a > b then -1 else 1)
    else cmpRev s as bs
  | _, _ => 0

/-- Embeds `Int::operator<=>` (returning 1, 0 or -1 like the C++ body). -/
def cmp (x y : PInt) : ℤ :=
  if x.sign ≠ y.sign then
    if x.sign = 1 then 1
    else if x.sign = -1 then -1
    else if y.sign = 1 then -1 else 1
  else if x.digits.length ≠ y.digits.length then
    if x.sign = 1 then (if x.digits.length > y.digits.length then 1 else -1)
    else (if x.digits.length > y.digits.length then -1 else 1)
  else cmpRev x.sign x.digits.reverse y.digits.reverse

theorem eqI_iff (x y : PInt) : eqI x y = true ↔ x = y := by
  cases x; cases y
  simp [eqI, and_comm]

theorem cmpRev_flip (s : ℤ) (hs : s ≠ 1) (u v : List ℕ) :
    cmpRev s u v = -cmpRev 1 u v := by
  induction u generalizing v with
  | nil => rcases v with _ | _ <;> simp [cmpRev]
  | cons a as ih =>
    rcases v with _ | ⟨b, bs⟩
    · simp [cmpRev]
    · by_cases hab : a = b
      · have l1 : cmpRev s (a :: as) (b :: bs) = cmpRev s as bs := by
          rw [cmpRev, if_neg (by simpa using hab)]
        have l2 : cmpRev 1 (a :: as) (b :: bs) = cmpRev 1 as bs := by
          rw [cmpRev, if_neg (by simpa using hab)]
        rw [l1, l2]
        exact ih bs
      · have l1 : cmpRev s (a :: as) (b :: bs) =
            if a > b then -1 else 1 := by
          rw [cmpRev, if_pos (by simpa using hab), if_neg hs]
        have l2 : cmpRev 1 (a :: as) (b :: bs) =
            if a > b then 1 else -1 := by
          rw [cmpRev, if_pos (by simpa using hab), if_pos rfl]
        rw [l1, l2]
        by_cases h : a > b <;> simp [h]

theorem cmpRev_one (u v : List ℕ) (hlen : u.length = v.length)
    (hu : ∀ d ∈ u, d ≤ 9) (hv : ∀ d ∈ v, d ≤ 9) :
    cmpRev 1 u v = Int.sign ((fromDigits u.reverse : ℤ) - fromDigits v.reverse) := by
  induction u generalizing v with
  | nil =>
    rcases v with _ | _
    · simp [cmpRev, fromDigits]
    · simp at hlen
  | cons a as ih =>
    rcases v with _ | ⟨b, bs⟩
    · simp at hlen
    · simp only [List.length_cons, Nat.succ.injEq] at hlen
      have has : ∀ d ∈ as, d ≤ 9 := fun d hd => hu d (by simp [hd])
      have hbs : ∀ d ∈ bs, d ≤ 9 := fun d hd => hv d (by simp [hd])
      have hva : fromDigits as.reverse < 10 ^ as.length := by
        have := fromDigits_lt as.reverse (by simpa using has)
        simpa using this
      have hvb : fromDigits bs.reverse < 10 ^ bs.length := by
        have := fromDigits_lt bs.reverse (by simpa using hbs)
        simpa using this
      have hrw1 : fromDigits ((a :: as).reverse) =
          fromDigits as.reverse + 10 ^ as.length * a := by
        simp [fromDigits_append, fromDigits]
      have hrw2 : fromDigits ((b :: bs).reverse) =
          fromDigits bs.reverse + 10 ^ bs.length * b := by
        simp [fromDigits_append, fromDigits]
      by_cases hab : a = b
      · have hthis : cmpRev 1 (a :: as) (b :: bs) = cmpRev 1 as bs := by
          rw [cmpRev, if_neg (by simpa using hab)]
        rw [hthis, ih bs hlen has hbs, hrw1, hrw2, hab, hlen]
        congr 1
        push_cast
        ring
      · have hcmp : cmpRev 1 (a :: as) (b :: bs) = if a > b then 1 else -1 := by
          rw [cmpRev, if_pos (by simpa using hab), if_pos rfl]
        rw [hcmp]
        rcases Nat.lt_or_ge b a with hba | hba
        · rw [if_pos hba]
          symm
          apply Int.sign_eq_one_of_pos
          have hlt : fromDigits ((b :: bs).reverse) < fromDigits ((a :: as).reverse) := by
            rw [hrw1, hrw2]
            calc fromDigits bs.reverse + 10 ^ bs.length * b
                < 10 ^ bs.length + 10 ^ bs.length * b := by omega
              _ = 10 ^ bs.length * (b + 1) := by ring
              _ ≤ 10 ^ bs.length * a := Nat.mul_le_mul_left _ hba
              _ = 10 ^ as.length * a := by rw [hlen]
              _ ≤ fromDigits as.reverse + 10 ^ as.length * a := Nat.le_add_left _ _
          omega
        · have hba' : a < b := by omega
          rw [if_neg (by omega)]
          symm
          apply Int.sign_eq_neg_one_of_neg
          have hlt : fromDigits ((a :: as).reverse) < fromDigits ((b :: bs).reverse) := by
            rw [hrw1, hrw2]
            calc fromDigits as.reverse + 10 ^ as.length * a
                < 10 ^ as.length + 10 ^ as.length * a := by omega
              _ = 10 ^ as.length * (a + 1) := by ring
              _ ≤ 10 ^ as.length * b := Nat.mul_le_mul_left _ hba'
              _ = 10 ^ bs.length * b := by rw [← hlen]
              _ ≤ fromDigits bs.reverse + 10 ^ bs.length * b := Nat.le_add_left _ _
          omega

/-- Sign field agrees with the sign of the abstract value. -/
theorem sign_toZ (x : PInt) (hx : Valid x) : Int.sign (toZ x) = x.sign := by
  obtain ⟨h9, hn, h0, hs⟩ := hx
  by_cases he : x.digits = []
  · rw [toZ, he]
    simp [fromDigits, h0.mpr he]
  · have hp : 0 < fromDigits x.digits := fromDigits_pos _ he hn
    have hp' : (0 : ℤ) < fromDigits x.digits := by exact_mod_cast hp
    rcases hs with h1 | h1 | h1
    · rw [toZ, h1, one_mul, Int.sign_eq_one_of_pos hp']
    · exact absurd (h0.mp h1) he
    · rw [toZ, h1,
        show (-1 : ℤ) * (fromDigits x.digits : ℤ) = -(fromDigits x.digits : ℤ) by ring,
        Int.sign_neg, Int.sign_eq_one_of_pos hp']

theorem toZ_pos_of (x : PInt) (hx : Valid x) (h : x.sign = 1) : 0 < toZ x := by
  have := sign_toZ x hx
  rw [h] at this
  exact Int.sign_eq_one_iff_pos.mp this

theorem toZ_neg_of (x : PInt) (hx : Valid x) (h : x.sign = -1) : toZ x < 0 := by
  have := sign_toZ x hx
  rw [h] at this
  exact Int.sign_eq_neg_one_iff_neg.mp this

theorem toZ_zero_of (x : PInt) (hx : Valid x) (h : x.sign = 0) : toZ x = 0 := by
  rw [toZ, h, zero_mul]

/-- Correctness of the three-way comparison on valid values. -/
theorem cmp_correct (x y : PInt) (hx : Valid x) (hy : Valid y) :
    cmp x y = Int.sign (toZ x - toZ y) := by
  have hx' := hx
  have hy' := hy
  obtain ⟨hx9, hxn, hx0, hxs⟩ := hx'
  obtain ⟨hy9, hyn, hy0, hys⟩ := hy'
  by_cases hs : x.sign = y.sign
  · rw [cmp, if_neg (by simpa using hs)]
    by_cases hlen : x.digits.length = y.digits.length
    · rw [if_neg (by simpa using hlen)]
      rcases hxs with h1 | h1 | h1
      · rw [h1, cmpRev_one _ _ (by simpa using hlen) (by simpa using hx9)
          (by simpa using hy9)]
        simp only [List.reverse_reverse]
        rw [toZ, toZ, h1, ← hs, h1]
        push_cast
        ring_nf
      · have hxe := hx0.mp h1
        have hye := hy0.mp (hs ▸ h1)
        rw [toZ_zero_of x hx h1, toZ_zero_of y hy (hs ▸ h1)]
        rw [h1, hxe, hye]
        simp [cmpRev]
      · rw [h1, cmpRev_flip _ (by norm_num) _ _,
          cmpRev_one _ _ (by simpa using hlen) (by simpa using hx9) (by simpa using hy9)]
        simp only [List.reverse_reverse]
        rw [toZ, toZ, h1, ← hs, h1, ← Int.sign_neg]
        congr 1
        push_cast
        ring
    · rw [if_pos (by simpa using hlen)]
      -- different digit counts, same sign; the sign cannot be 0 here
      have hsne : x.sign ≠ 0 := by
        intro h0
        have hxe := hx0.mp h0
        have hye := hy0.mp (hs ▸ h0)
        rw [hxe, hye] at hlen
        exact hlen rfl
      have hxe : x.digits ≠ [] := fun hc => by
        have := hx0.mpr hc
        exact hsne this
      have hye : y.digits ≠ [] := by
        intro hc
        have := hy0.mpr hc
        exact hsne (hs ▸ this)
      -- magnitude comparison from length comparison
      have hmag : ∀ (u v : List ℕ), (∀ d ∈ u, d ≤ 9) → v.getLast? ≠ some 0 →
          v ≠ [] → u.length < v.length → fromDigits u < fromDigits v := by
        intro u v hu hvn hvne hlt
        have h1 := fromDigits_lt u hu
        have h2 := fromDigits_ge v hvne hvn
        have : 10 ^ u.length ≤ 10 ^ (v.length - 1) :=
          Nat.pow_le_pow_right (by norm_num) (by omega)
        omega
      rcases hxs with h1 | h1 | h1
      · -- positive sign: longer magnitude wins
        rw [if_pos h1]
        have hsy : y.sign = 1 := by rw [← hs]; exact h1
        rcases Nat.lt_or_ge x.digits.length y.digits.length with hlt | hge2
        · have hm : fromDigits x.digits < fromDigits y.digits :=
            hmag _ _ hx9 hyn hye hlt
          rw [if_neg (by omega)]
          symm
          apply Int.sign_eq_neg_one_of_neg
          rw [toZ, toZ, h1, hsy]
          push_cast
          omega
        · have hlt2 : y.digits.length < x.digits.length := by omega
          have hm : fromDigits y.digits < fromDigits x.digits :=
            hmag _ _ hy9 hxn hxe hlt2
          rw [if_pos (by omega)]
          symm
          apply Int.sign_eq_one_of_pos
          rw [toZ, toZ, h1, hsy]
          push_cast
          omega
      · exact absurd h1 hsne
      · -- negative sign: longer magnitude loses
        rw [if_neg (by rw [h1]; norm_num)]
        have hsy : y.sign = -1 := by rw [← hs]; exact h1
        rcases Nat.lt_or_ge x.digits.length y.digits.length with hlt | hge2
        · have hm : fromDigits x.digits < fromDigits y.digits :=
            hmag _ _ hx9 hyn hye hlt
          rw [if_neg (by omega)]
          symm
          apply Int.sign_eq_one_of_pos
          rw [toZ, toZ, h1, hsy]
          push_cast
          omega
        · have hlt2 : y.digits.length < x.digits.length := by omega
          have hm : fromDigits y.digits < fromDigits x.digits :=
            hmag _ _ hy9 hxn hxe hlt2
          rw [if_pos (by omega)]
          symm
          apply Int.sign_eq_neg_one_of_neg
          rw [toZ, toZ, h1, hsy]
          push_cast
          omega
  · rw [cmp, if_pos (by simpa using hs)]
    rcases hxs with h1 | h1 | h1
    · rw [if_pos h1]
      have hxp : 0 < toZ x := toZ_pos_of x hx h1
      have hyle : toZ y ≤ 0 := by
        rcases hys with h2 | h2 | h2
        · exact absurd (h1.trans h2.symm) hs
        · rw [toZ_zero_of y hy h2]
        · exact le_of_lt (toZ_neg_of y hy h2)
      exact (Int.sign_eq_one_of_pos (by omega)).symm
    · rw [if_neg (by rw [h1]; norm_num), if_neg (by rw [h1]; norm_num)]
      have hx0' : toZ x = 0 := toZ_zero_of x hx h1
      rcases hys with h2 | h2 | h2
      · rw [if_pos h2]
        have : 0 < toZ y := toZ_pos_of y hy h2
        exact (Int.sign_eq_neg_one_of_neg (by omega)).symm
      · exact absurd (h1.trans h2.symm) hs
      · rw [if_neg (by rw [h2]; norm_num)]
        have : toZ y < 0 := toZ_neg_of y hy h2
        exact (Int.sign_eq_one_of_pos (by omega)).symm
    · rw [if_neg (by rw [h1]; norm_num), if_pos h1]
      have hxn' : toZ x < 0 := toZ_neg_of x hx h1
      have hyge : 0 ≤ toZ y := by
        rcases hys with h2 | h2 | h2
        · exact le_of_lt (toZ_pos_of y hy h2)
        · rw [toZ_zero_of y hy h2]
        · exact absurd (h1.trans h2.symm) hs
      exact (Int.sign_eq_neg_one_of_neg (by omega)).symm

/-! ### Additive operators (`operator-` unary, `abs`, `operator+`, `operator-`) -/

/-- Embeds unary `Int::operator-`: flip the sign field, digits untouched. -/
def negI (x : PInt) : PInt := ⟨x.digits, -x.sign⟩

/-- Embeds `Int::abs`. -/
def absI (x : PInt) : PInt := if x.sign = -1 then negI x else x

/-- The vertical-addition loop of `Int::operator+`:
`c[i] += a[i] + b[i]; c[i+1] = c[i] / 10; c[i] %= 10;` over the zipped,
length-aligned digit vectors, carrying `c[i]`'s overflow into the next slot and
finally leaving the last carry in the extra most-significant slot. -/
def addLoop : List (ℕ × ℕ) → ℕ → List ℕ
  | [], carry => [carry]
  | (a, b) :: rest, carry => (carry + a + b) % 10 :: addLoop rest ((carry + a + b) / 10)

/-- The vertical-subtraction loop of `Int::operator-`:
`if (a[i] < b[i]) { a[i+1]--; a[i] += 10; } c[i] = a[i] - b[i];`.
The C++ code pushes the borrow into the next minuend digit in place; here the
pending borrow is carried along instead (`a[i]` at visit time equals the stored
digit minus the incoming borrow), which is the same computation. -/
def subLoop : List (ℕ × ℕ) → ℕ → List ℕ
  | [], _ => []
  | (a, b) :: rest, borrow =>
    if a < b + borrow then (10 + a - b - borrow) :: subLoop rest 1
    else (a - b - borrow) :: subLoop rest 0

/-- The borrow that `subLoop` would propagate out of the most significant
digit (the C++ code would decrement one past the end; with a minuend of larger
magnitude this is always 0). -/
def subLoopBorrow : List (ℕ × ℕ) → ℕ → ℕ
  | [], borrow => borrow
  | (a, b) :: rest, borrow =>
    if a < b + borrow then subLoopBorrow rest 1 else subLoopBorrow rest 0

/-- The digit-level work of the same-sign branch of `Int::operator+`: pad the
operands to a common width (`size - 1`), run the carry loop with one extra
most-significant slot, and normalize. -/
def addCore (u v : List ℕ) : List ℕ :=
  let size := max u.length v.length + 1
  let n1 := addLZ u (size - 1 - u.length)
  let n2 := addLZ v (size - 1 - v.length)
  removeLZ (addLoop (n1.zip n2) 0)

/-- Embeds the same-sign branch of `Int::operator+` (both operands nonzero with
equal signs): result digits from `addCore`, sign the common operand sign. -/
def addPos (x y : PInt) : PInt := ⟨addCore x.digits y.digits, x.sign⟩

/-- The digit-level work of the same-sign branch of `Int::operator-`: pad the
operands to a common width, compare the padded values (through the full
`operator<=>` on copies carrying the operand signs `s` and `t`, exactly as the
C++ code compares `num1 < num2` resp. `num1 > num2`), swap so the minuend has
the larger magnitude, run the borrow loop, and normalize.  Returns the digits
and whether the operands were swapped. -/
def subCore (s t : ℤ) (u v : List ℕ) : List ℕ × Bool :=
  let size := max u.length v.length
  let n1 := addLZ u (size - u.length)
  let n2 := addLZ v (size - v.length)
  let swap : Bool := if s = 1 then decide (cmp ⟨n1, s⟩ ⟨n2, t⟩ < 0)
                     else decide (cmp ⟨n1, s⟩ ⟨n2, t⟩ > 0)
  let p := if swap then n2 else n1
  let q := if swap then n1 else n2
  (removeLZ (subLoop (p.zip q) 0), swap)

/-- Embeds the same-sign branch of `Int::operator-` (both operands nonzero with
equal signs): digits from `subCore`; the result sign is the common sign,
flipped on swap, and zeroed if the digits vanish. -/
def subPos (x y : PInt) : PInt :=
  let r := subCore x.sign y.sign x.digits y.digits
  let rsign := if r.2 then -x.sign else x.sign
  ⟨r.1, if r.1 = [] then 0 else rsign⟩

/-- Embeds `Int::operator+`.  The C++ opposite-sign branches delegate to
`operator-` on operands that then have equal nonzero signs, so they are inlined
to `subPos` directly (one unfolding of the mutual recursion). -/
def add (x y : PInt) : PInt :=
  if x.sign = 0 then y
  else if y.sign = 0 then x
  else if x.sign = 1 ∧ y.sign = -1 then subPos x (negI y)
  else if x.sign = -1 ∧ y.sign = 1 then subPos y (negI x)
  else addPos x y

/-- Embeds `Int::operator-`.  The C++ opposite-sign branch delegates to
`operator+` on operands that then have equal nonzero signs, so it is inlined to
`addPos` directly (one unfolding of the mutual recursion). -/
def sub (x y : PInt) : PInt :=
  if x.sign = 0 then negI y
  else if y.sign = 0 then x
  else if x.sign ≠ y.sign then addPos x (negI y)
  else subPos x y

theorem negI_valid (x : PInt) (hx : Valid x) : Valid (negI x) := by
  obtain ⟨h9, hn, h0, hs⟩ := hx
  refine ⟨h9, hn, ?_, ?_⟩
  · simpa [negI, neg_eq_zero] using h0
  · simp only [negI]
    rcases hs with h | h | h <;> rw [h] <;> norm_num

theorem toZ_negI (x : PInt) : toZ (negI x) = -toZ x := by
  simp [toZ, negI]

theorem absI_valid (x : PInt) (hx : Valid x) : Valid (absI x) := by
  rw [absI]
  split
  · exact negI_valid x hx
  · exact hx

theorem toZ_absI (x : PInt) (hx : Valid x) : toZ (absI x) = |toZ x| := by
  rw [absI]
  split
  · next h =>
    rw [toZ_negI]
    have : toZ x < 0 := toZ_neg_of x hx h
    rw [abs_of_neg this]
  · next h =>
    have : 0 ≤ toZ x := by
      rcases hx.2.2.2 with h1 | h1 | h1
      · exact le_of_lt (toZ_pos_of x hx h1)
      · rw [toZ_zero_of x hx h1]
      · exact absurd h1 h
    rw [abs_of_nonneg this]

theorem addLoop_length (ps : List (ℕ × ℕ)) (c : ℕ) :
    (addLoop ps c).length = ps.length + 1 := by
  induction ps generalizing c with
  | nil => rfl
  | cons p rest ih =>
    obtain ⟨a, b⟩ := p
    simp [addLoop, ih]

theorem addLoop_value (ps : List (ℕ × ℕ)) (c : ℕ) :
    fromDigits (addLoop ps c) =
      c + fromDigits (ps.map Prod.fst) + fromDigits (ps.map Prod.snd) := by
  induction ps generalizing c with
  | nil => simp [addLoop, fromDigits]
  | cons p rest ih =>
    obtain ⟨a, b⟩ := p
    simp only [addLoop, fromDigits, List.map_cons, ih]
    omega

theorem addLoop_digits_le (ps : List (ℕ × ℕ)) (c : ℕ) (hc : c ≤ 9)
    (hps : ∀ p ∈ ps, p.1 ≤ 9 ∧ p.2 ≤ 9) : ∀ d ∈ addLoop ps c, d ≤ 9 := by
  induction ps generalizing c with
  | nil =>
    intro d hd
    simp [addLoop] at hd
    omega
  | cons p rest ih =>
    obtain ⟨a, b⟩ := p
    intro d hd
    obtain ⟨ha, hb⟩ := hps (a, b) (by simp)
    simp only [addLoop, List.mem_cons] at hd
    rcases hd with hd | hd
    · omega
    · exact ih ((c + a + b) / 10) (by omega) (fun p hp => hps p (by simp [hp])) d hd

theorem subLoop_length (ps : List (ℕ × ℕ)) (b : ℕ) :
    (subLoop ps b).length = ps.length := by
  induction ps generalizing b with
  | nil => rfl
  | cons p rest ih =>
    obtain ⟨x, y⟩ := p
    rw [subLoop]
    split <;> simp [ih]

theorem subLoopBorrow_le (ps : List (ℕ × ℕ)) (b : ℕ) (hb : b ≤ 1) :
    subLoopBorrow ps b ≤ 1 := by
  induction ps generalizing b with
  | nil => simpa [subLoopBorrow] using hb
  | cons p rest ih =>
    obtain ⟨x, y⟩ := p
    rw [subLoopBorrow]
    split
    · exact ih 1 (le_refl 1)
    · exact ih 0 (by omega)

theorem subLoop_digits_le (ps : List (ℕ × ℕ)) (b : ℕ) (hb : b ≤ 1)
    (hfst : ∀ p ∈ ps, p.1 ≤ 9) : ∀ d ∈ subLoop ps b, d ≤ 9 := by
  induction ps generalizing b with
  | nil =>
    intro d hd
    simp [subLoop] at hd
  | cons p rest ih =>
    obtain ⟨x, y⟩ := p
    intro d hd
    have hx : x ≤ 9 := hfst (x, y) (by simp)
    rw [subLoop] at hd
    split at hd <;> rcases List.mem_cons.mp hd with hd | hd
    · omega
    · exact ih 1 (le_refl 1) (fun p hp => hfst p (by simp [hp])) d hd
    · omega
    · exact ih 0 (by omega) (fun p hp => hfst p (by simp [hp])) d hd

theorem subLoop_value (ps : List (ℕ × ℕ)) (b : ℕ) (hb : b ≤ 1)
    (hsnd : ∀ p ∈ ps, p.2 ≤ 9) :
    (fromDigits (subLoop ps b) : ℤ) =
      (fromDigits (ps.map Prod.fst) : ℤ) - fromDigits (ps.map Prod.snd) - b
        + 10 ^ ps.length * subLoopBorrow ps b := by
  induction ps generalizing b with
  | nil => simp [subLoop, subLoopBorrow, fromDigits]
  | cons p rest ih =>
    obtain ⟨x, y⟩ := p
    have hy : y ≤ 9 := hsnd (x, y) (by simp)
    have hrest : ∀ p ∈ rest, p.2 ≤ 9 := fun p hp => hsnd p (by simp [hp])
    rw [subLoop, subLoopBorrow]
    split
    · next hlt =>
      have ih1 := ih 1 (le_refl 1) hrest
      simp only [fromDigits, List.map_cons, List.length_cons]
      push_cast [show (10 : ℕ) + x - y - b = 10 + x - (y + b) from by omega]
      rw [Nat.cast_sub (by omega)]
      push_cast
      rw [ih1]
      push_cast
      ring
    · next hge =>
      have ih0 := ih 0 (by omega) hrest
      simp only [fromDigits, List.map_cons, List.length_cons]
      rw [show x - y - b = x - (y + b) from by omega,
        Nat.cast_add, Nat.cast_mul, Nat.cast_sub (by omega)]
      push_cast
      rw [ih0]
      push_cast
      ring

theorem addLZ_spec (l : List ℕ) (L : ℕ) (hL : l.length ≤ L) (h9 : ∀ d ∈ l, d ≤ 9) :
    (addLZ l (L - l.length)).length = L ∧
    fromDigits (addLZ l (L - l.length)) = fromDigits l ∧
    ∀ d ∈ addLZ l (L - l.length), d ≤ 9 := by
  refine ⟨by simp [addLZ]; omega, fromDigits_addLZ l _, ?_⟩
  intro d hd
  rw [addLZ] at hd
  rcases List.mem_append.mp hd with hd | hd
  · exact h9 d hd
  · have := List.eq_of_mem_replicate hd
    omega

theorem sign_lt_zero_iff (z : ℤ) : Int.sign z < 0 ↔ z < 0 := by
  rcases lt_trichotomy z 0 with h | h | h
  · rw [Int.sign_eq_neg_one_of_neg h]
    simp [h]
  · simp [h]
  · rw [Int.sign_eq_one_of_pos h]
    constructor <;> intro <;> omega

theorem addCore_spec (u v : List ℕ) (hu : ∀ d ∈ u, d ≤ 9) (hv : ∀ d ∈ v, d ≤ 9) :
    fromDigits (addCore u v) = fromDigits u + fromDigits v ∧
    (∀ d ∈ addCore u v, d ≤ 9) ∧ (addCore u v).getLast? ≠ some 0 := by
  have e1 : max u.length v.length + 1 - 1 - u.length = max u.length v.length - u.length := by
    omega
  have e2 : max u.length v.length + 1 - 1 - v.length = max u.length v.length - v.length := by
    omega
  obtain ⟨h1len, h1val, h1d⟩ := addLZ_spec u (max u.length v.length) (le_max_left _ _) hu
  obtain ⟨h2len, h2val, h2d⟩ := addLZ_spec v (max u.length v.length) (le_max_right _ _) hv
  have hzf : ((addLZ u (max u.length v.length - u.length)).zip
      (addLZ v (max u.length v.length - v.length))).map Prod.fst
        = addLZ u (max u.length v.length - u.length) :=
    List.map_fst_zip _ _ (by rw [h1len, h2len])
  have hzs : ((addLZ u (max u.length v.length - u.length)).zip
      (addLZ v (max u.length v.length - v.length))).map Prod.snd
        = addLZ v (max u.length v.length - v.length) :=
    List.map_snd_zip _ _ (by rw [h1len, h2len])
  refine ⟨?_, ?_, ?_⟩
  · simp only [addCore, e1, e2]
    rw [fromDigits_removeLZ, addLoop_value, hzf, hzs, h1val, h2val]
    omega
  · intro d hd
    simp only [addCore, e1, e2] at hd
    refine addLoop_digits_le _ 0 (by omega) ?_ d (removeLZ_mem hd)
    rintro ⟨a, b⟩ hp
    obtain ⟨hp1, hp2⟩ := List.of_mem_zip hp
    exact ⟨h1d _ hp1, h2d _ hp2⟩
  · simp only [addCore, e1, e2]
    exact removeLZ_getLast? _

/-- Correctness of the borrow loop on aligned digit lists whose first component
has the larger value. -/
theorem subAligned_spec (n1 n2 : List ℕ) (hlen : n1.length = n2.length)
    (h1d : ∀ d ∈ n1, d ≤ 9) (h2d : ∀ d ∈ n2, d ≤ 9)
    (hge : fromDigits n2 ≤ fromDigits n1) :
    (fromDigits (removeLZ (subLoop (n1.zip n2) 0)) : ℤ) =
      (fromDigits n1 : ℤ) - fromDigits n2 ∧
    (∀ d ∈ removeLZ (subLoop (n1.zip n2) 0), d ≤ 9) := by
  have hfst : (n1.zip n2).map Prod.fst = n1 := List.map_fst_zip _ _ (le_of_eq hlen)
  have hsnd : (n1.zip n2).map Prod.snd = n2 := List.map_snd_zip _ _ (le_of_eq hlen.symm)
  have hpair1 : ∀ p ∈ n1.zip n2, p.1 ≤ 9 := by
    rintro ⟨a, b⟩ hp
    exact h1d _ (List.of_mem_zip hp).1
  have hpair2 : ∀ p ∈ n1.zip n2, p.2 ≤ 9 := by
    rintro ⟨a, b⟩ hp
    exact h2d _ (List.of_mem_zip hp).2
  have hdig := subLoop_digits_le (n1.zip n2) 0 (by omega) hpair1
  have hlenr := subLoop_length (n1.zip n2) 0
  have hBle := subLoopBorrow_le (n1.zip n2) 0 (by omega)
  have hval := subLoop_value (n1.zip n2) 0 (by omega) hpair2
  rw [hfst, hsnd] at hval
  have hB0 : subLoopBorrow (n1.zip n2) 0 = 0 := by
    by_contra hB
    have hB1 : subLoopBorrow (n1.zip n2) 0 = 1 := by omega
    rw [hB1] at hval
    have hub : fromDigits (subLoop (n1.zip n2) 0) < 10 ^ (n1.zip n2).length := by
      have := fromDigits_lt _ hdig
      rwa [hlenr] at this
    have hub' : (fromDigits (subLoop (n1.zip n2) 0) : ℤ) < (10 : ℤ) ^ (n1.zip n2).length := by
      exact_mod_cast hub
    have hge' : (fromDigits n2 : ℤ) ≤ (fromDigits n1 : ℤ) := by exact_mod_cast hge
    have hpow : (0 : ℤ) < (10 : ℤ) ^ (n1.zip n2).length := by positivity
    omega
  rw [hB0] at hval
  constructor
  · rw [fromDigits_removeLZ]
    simpa using hval
  · intro d hd
    exact hdig d (removeLZ_mem hd)

theorem subCore_spec (s : ℤ) (u v : List ℕ) (hs : s = 1 ∨ s = -1)
    (hu : ∀ d ∈ u, d ≤ 9) (hv : ∀ d ∈ v, d ≤ 9) :
    ((subCore s s u v).2 = true ↔ fromDigits u < fromDigits v) ∧
    ((fromDigits (subCore s s u v).1 : ℤ) = |(fromDigits u : ℤ) - fromDigits v|) ∧
    (∀ d ∈ (subCore s s u v).1, d ≤ 9) ∧ ((subCore s s u v).1.getLast? ≠ some 0) := by
  obtain ⟨h1len, h1val, h1d⟩ :=
    addLZ_spec u (max u.length v.length) (le_max_left _ _) hu
  obtain ⟨h2len, h2val, h2d⟩ :=
    addLZ_spec v (max u.length v.length) (le_max_right _ _) hv
  have hcmp : cmp ⟨addLZ u (max u.length v.length - u.length), s⟩
      ⟨addLZ v (max u.length v.length - v.length), s⟩ =
        cmpRev s (addLZ u (max u.length v.length - u.length)).reverse
          (addLZ v (max u.length v.length - v.length)).reverse := by
    rw [cmp, if_neg (by simp), if_neg (by simp [h1len, h2len])]
  have hrevlen : (addLZ u (max u.length v.length - u.length)).reverse.length =
      (addLZ v (max u.length v.length - v.length)).reverse.length := by
    simp [h1len, h2len]
  have hrev1 : ∀ d ∈ (addLZ u (max u.length v.length - u.length)).reverse, d ≤ 9 := by
    intro d hd
    exact h1d d (List.mem_reverse.mp hd)
  have hrev2 : ∀ d ∈ (addLZ v (max u.length v.length - v.length)).reverse, d ≤ 9 := by
    intro d hd
    exact h2d d (List.mem_reverse.mp hd)
  have hone := cmpRev_one _ _ hrevlen hrev1 hrev2
  simp only [List.reverse_reverse] at hone
  rw [h1val, h2val] at hone
  -- the swap flag decides exactly "magnitude of u < magnitude of v"
  have hswap : (subCore s s u v).2 = decide (fromDigits u < fromDigits v) := by
    simp only [subCore]
    rcases hs with h1 | h1
    · subst h1
      rw [if_pos rfl, hcmp, hone]
      by_cases hlt : fromDigits u < fromDigits v
      · have : ((fromDigits u : ℤ) - fromDigits v) < 0 := by
          have : (fromDigits u : ℤ) < fromDigits v := by exact_mod_cast hlt
          omega
        simp [sign_lt_zero_iff, this, hlt]
      · have : ¬((fromDigits u : ℤ) - fromDigits v) < 0 := by
          have : (fromDigits v : ℤ) ≤ fromDigits u := by
            exact_mod_cast Nat.le_of_not_lt hlt
          omega
        simp [sign_lt_zero_iff, this, hlt]
    · subst h1
      rw [if_neg (by norm_num), hcmp, cmpRev_flip _ (by norm_num), hone]
      by_cases hlt : fromDigits u < fromDigits v
      · have h' : ((fromDigits u : ℤ) - fromDigits v) < 0 := by
          have : (fromDigits u : ℤ) < fromDigits v := by exact_mod_cast hlt
          omega
        have : (0 : ℤ) < -Int.sign ((fromDigits u : ℤ) - fromDigits v) := by
          rw [Int.sign_eq_neg_one_of_neg h']
          norm_num
        simp [this, hlt]
      · have h' : (0 : ℤ) ≤ ((fromDigits u : ℤ) - fromDigits v) := by
          have : (fromDigits v : ℤ) ≤ fromDigits u := by
            exact_mod_cast Nat.le_of_not_lt hlt
          omega
        have : ¬(0 : ℤ) < -Int.sign ((fromDigits u : ℤ) - fromDigits v) := by
          rcases lt_or_eq_of_le h' with h'' | h''
          · rw [Int.sign_eq_one_of_pos h'']
            norm_num
          · rw [← h'']
            norm_num
        simp [this, hlt]
  refine ⟨by rw [hswap]; simp, ?_, ?_, ?_⟩ <;>
    [skip; skip; skip]
  all_goals {
    have hpairEq : subCore s s u v =
        (removeLZ (subLoop
          ((if (subCore s s u v).2 then addLZ v (max u.length v.length - v.length)
            else addLZ u (max u.length v.length - u.length)).zip
           (if (subCore s s u v).2 then addLZ u (max u.length v.length - u.length)
            else addLZ v (max u.length v.length - v.length))) 0),
          (subCore s s u v).2) := by
      conv_lhs => rw [subCore]
      rw [show ((subCore s s u v).2) = (if s = 1
        then decide (cmp ⟨addLZ u (max u.length v.length - u.length), s⟩
          ⟨addLZ v (max u.length v.length - v.length), s⟩ < 0)
        else decide (cmp ⟨addLZ u (max u.length v.length - u.length), s⟩
          ⟨addLZ v (max u.length v.length - v.length), s⟩ > 0)) from by rw [subCore]]
    rw [hswap] at hpairEq
    by_cases hlt : fromDigits u < fromDigits v
    · rw [hpairEq]
      simp only [decide_eq_true_eq, hlt, if_pos, decide_True]
      have hgeuv : fromDigits (addLZ u (max u.length v.length - u.length)) ≤
          fromDigits (addLZ v (max u.length v.length - v.length)) := by
        rw [h1val, h2val]
        omega
      obtain ⟨hval', h9'⟩ := subAligned_spec _ _ (h2len.trans h1len.symm) h2d h1d hgeuv
      first
      | (rw [hval', h1val, h2val]
         rw [abs_of_neg (by
           have : (fromDigits u : ℤ) < fromDigits v := by exact_mod_cast hlt
           omega)]
         ring)
      | (exact h9')
      | (exact removeLZ_getLast? _)
    · rw [hpairEq]
      simp only [decide_eq_true_eq, hlt, if_neg, decide_False, Bool.false_eq_true,
        if_false]
      have hgevu : fromDigits (addLZ v (max u.length v.length - v.length)) ≤
          fromDigits (addLZ u (max u.length v.length - u.length)) := by
        rw [h1val, h2val]
        omega
      obtain ⟨hval', h9'⟩ := subAligned_spec _ _ (h1len.trans h2len.symm) h1d h2d hgevu
      first
      | (rw [hval', h1val, h2val]
         rw [abs_of_nonneg (by
           have : (fromDigits v : ℤ) ≤ fromDigits u := by
             exact_mod_cast Nat.le_of_not_lt hlt
           omega)])
      | (exact h9')
      | (exact removeLZ_getLast? _)
  }

theorem addPos_spec (x y : PInt) (hx : Valid x) (hy : Valid y)
    (hsgn : x.sign = y.sign) (h0 : x.sign ≠ 0) :
    toZ (addPos x y) = toZ x + toZ y ∧ Valid (addPos x y) := by
  obtain ⟨hx9, hxn, hx0, hxs⟩ := hx
  obtain ⟨hy9, hyn, hy0, hys⟩ := hy
  obtain ⟨hval, h9, hlast⟩ := addCore_spec x.digits y.digits hx9 hy9
  have hxe : x.digits ≠ [] := fun hc => h0 (hx0.mpr hc)
  have hxp : 0 < fromDigits x.digits := fromDigits_pos _ hxe hxn
  have hne : addCore x.digits y.digits ≠ [] := by
    intro hc
    rw [hc] at hval
    have : fromDigits ([] : List ℕ) = 0 := rfl
    omega
  constructor
  · simp only [toZ, addPos]
    rw [hval, ← hsgn]
    push_cast
    ring
  · refine ⟨h9, hlast, ⟨fun hc => absurd hc h0, fun hc => absurd hc hne⟩, ?_⟩
    rcases hxs with h | h | h
    · exact Or.inl h
    · exact absurd h h0
    · exact Or.inr (Or.inr h)

theorem subPos_spec (x y : PInt) (hx : Valid x) (hy : Valid y)
    (hsgn : x.sign = y.sign) (h0 : x.sign ≠ 0) :
    toZ (subPos x y) = toZ x - toZ y ∧ Valid (subPos x y) := by
  obtain ⟨hx9, hxn, hx0, hxs⟩ := hx
  obtain ⟨hy9, hyn, hy0, hys⟩ := hy
  have hs : x.sign = 1 ∨ x.sign = -1 := by
    rcases hxs with h | h | h
    · exact Or.inl h
    · exact absurd h h0
    · exact Or.inr h
  obtain ⟨hswap, hval, h9, hlast⟩ := subCore_spec x.sign x.digits y.digits hs hx9 hy9
  have hyx : subCore x.sign y.sign x.digits y.digits =
      subCore x.sign x.sign x.digits y.digits := by rw [hsgn]
  have hABz : (fromDigits (subCore x.sign x.sign x.digits y.digits).1 : ℤ) =
      |(fromDigits x.digits : ℤ) - fromDigits y.digits| := hval
  by_cases hemp : (subCore x.sign x.sign x.digits y.digits).1 = []
  · have hAB : (fromDigits x.digits : ℤ) = fromDigits y.digits := by
      rw [hemp] at hABz
      have h00 : fromDigits ([] : List ℕ) = 0 := rfl
      rw [h00] at hABz
      have habs : |(fromDigits x.digits : ℤ) - fromDigits y.digits| = 0 := by
        exact_mod_cast hABz.symm
      have hd0 := abs_eq_zero.mp habs
      omega
    have hz : subPos x y = ⟨[], 0⟩ := by
      simp only [subPos, hyx]
      rw [if_pos hemp, hemp]
    constructor
    · rw [hz]
      have h1 : toZ ⟨[], 0⟩ = 0 := by simp [toZ]
      rw [h1, toZ, toZ, ← hsgn, hAB]
      ring
    · rw [hz]
      decide
  · constructor
    · simp only [subPos, hyx]
      rw [if_neg hemp]
      simp only [toZ]
      by_cases hsw : (subCore x.sign x.sign x.digits y.digits).2 = true
      · have hlt : fromDigits x.digits < fromDigits y.digits := hswap.mp hsw
        rw [hsw, if_pos rfl]
        rw [hABz, abs_of_neg (by
          have : (fromDigits x.digits : ℤ) < fromDigits y.digits := by exact_mod_cast hlt
          omega), ← hsgn]
        ring
      · have hge : fromDigits y.digits ≤ fromDigits x.digits := by
          have := (not_iff_not.mpr hswap).mp hsw
          omega
        have hsw' : (subCore x.sign x.sign x.digits y.digits).2 = false := by
          rcases Bool.eq_false_or_eq_true (subCore x.sign x.sign x.digits y.digits).2
            with h | h
          · first
            | exact h
            | exact absurd h hsw
          · first
            | exact h
            | exact absurd h hsw
        rw [hsw', if_neg (by simp)]
        rw [hABz, abs_of_nonneg (by
          have : (fromDigits y.digits : ℤ) ≤ fromDigits x.digits := by exact_mod_cast hge
          omega), ← hsgn]
        ring
    · have hsignopts : (if (subCore x.sign x.sign x.digits y.digits).2 then -x.sign
          else x.sign) = 1 ∨
        (if (subCore x.sign x.sign x.digits y.digits).2 then -x.sign
          else x.sign) = -1 := by
        rcases Bool.eq_false_or_eq_true (subCore x.sign x.sign x.digits y.digits).2
          with h2 | h2 <;> rw [h2]
        · rw [if_pos rfl]
          rcases hs with h | h <;> rw [h] <;> norm_num
        · rw [if_neg (by simp)]
          exact hs
      have hrep : subPos x y = ⟨(subCore x.sign x.sign x.digits y.digits).1,
          if (subCore x.sign x.sign x.digits y.digits).2 then -x.sign else x.sign⟩ := by
        simp only [subPos, hyx]
        rw [if_neg hemp]
      rw [hrep]
      refine ⟨h9, hlast, ?_, ?_⟩
      · constructor
        · intro hc
          rcases hsignopts with h | h <;> rw [h] at hc <;> norm_num at hc
        · intro hc
          exact absurd hc hemp
      · rcases hsignopts with h | h
        · exact Or.inl h
        · exact Or.inr (Or.inr h)

theorem add_spec (x y : PInt) (hx : Valid x) (hy : Valid y) :
    toZ (add x y) = toZ x + toZ y ∧ Valid (add x y) := by
  rw [add]
  by_cases hx0 : x.sign = 0
  · rw [if_pos hx0]
    rw [toZ_zero_of x hx hx0]
    exact ⟨by ring, hy⟩
  · rw [if_neg hx0]
    by_cases hy0 : y.sign = 0
    · rw [if_pos hy0]
      rw [toZ_zero_of y hy hy0]
      exact ⟨by ring, hx⟩
    · rw [if_neg hy0]
      by_cases hc1 : x.sign = 1 ∧ y.sign = -1
      · rw [if_pos hc1]
        have hny := negI_valid y hy
        obtain ⟨hv, hval⟩ := subPos_spec x (negI y) hx hny
          (by simp [negI, hc1.1, hc1.2]) (by rw [hc1.1]; norm_num)
        rw [hv, toZ_negI]
        exact ⟨by ring, hval⟩
      · rw [if_neg hc1]
        by_cases hc2 : x.sign = -1 ∧ y.sign = 1
        · rw [if_pos hc2]
          have hnx := negI_valid x hx
          obtain ⟨hv, hval⟩ := subPos_spec y (negI x) hy hnx
            (by simp [negI, hc2.1, hc2.2]) (by rw [hc2.2]; norm_num)
          rw [hv, toZ_negI]
          exact ⟨by ring, hval⟩
        · rw [if_neg hc2]
          have hsgn : x.sign = y.sign := by
            obtain ⟨-, -, -, hxs⟩ := hx
            obtain ⟨-, -, -, hys⟩ := hy
            rcases hxs with h1 | h1 | h1 <;> rcases hys with h2 | h2 | h2 <;>
              first
              | (exact h1.trans h2.symm)
              | (exact absurd h1 hx0)
              | (exact absurd h2 hy0)
              | (exact absurd (And.intro h1 h2) hc1)
              | (exact absurd (And.intro h1 h2) hc2)
          exact addPos_spec x y hx hy hsgn hx0

theorem sub_spec (x y : PInt) (hx : Valid x) (hy : Valid y) :
    toZ (sub x y) = toZ x - toZ y ∧ Valid (sub x y) := by
  rw [sub]
  by_cases hx0 : x.sign = 0
  · rw [if_pos hx0]
    rw [toZ_zero_of x hx hx0, toZ_negI]
    exact ⟨by ring, negI_valid y hy⟩
  · rw [if_neg hx0]
    by_cases hy0 : y.sign = 0
    · rw [if_pos hy0]
      rw [toZ_zero_of y hy hy0]
      exact ⟨by ring, hx⟩
    · rw [if_neg hy0]
      by_cases hne : x.sign = y.sign
      · rw [if_neg (by simpa using hne)]
        exact subPos_spec x y hx hy hne hx0
      · rw [if_pos (by simpa using hne)]
        have hny := negI_valid y hy
        have hsgn : x.sign = (negI y).sign := by
          obtain ⟨-, -, -, hxs⟩ := hx
          obtain ⟨-, -, -, hys⟩ := hy
          simp only [negI]
          rcases hxs with h1 | h1 | h1 <;> rcases hys with h2 | h2 | h2 <;>
            first
            | (exact absurd h1 hx0)
            | (exact absurd h2 hy0)
            | (exact absurd (h1.trans h2.symm) hne)
            | ((rw [h1, h2]) <;> decide)
        obtain ⟨hv, hval⟩ := addPos_spec x (negI y) hx hny hsgn hx0
        rw [hv, toZ_negI]
        exact ⟨by ring, hval⟩

/-! ### Multiplication (`Int::operator*`) -/

/-- One inner-loop step of `Int::operator*`:
`c[k] += v; c[k+1] += c[k] / 10; c[k] %= 10;` with `v = a[i] * b[j]`,
`k = i + j`. -/
def mulStep (v : ℕ) (c : List ℕ) (k : ℕ) : List ℕ :=
  let t := c.getD k 0 + v
  ((c.set k t).set (k + 1) ((c.set k t).getD (k + 1) 0 + t / 10)).set k (t % 10)

/-- The inner (`j`) loop of `Int::operator*` for a fixed multiplier digit `ai`,
walking the remaining digits `bs` of the other operand with current column
`k = i + j`. -/
def rowLoop (ai : ℕ) : List ℕ → ℕ → List ℕ → List ℕ
  | [], _, c => c
  | bj :: bs, k, c => rowLoop ai bs (k + 1) (mulStep (ai * bj) c k)

/-- The outer (`i`) loop of `Int::operator*`. -/
def mulLoop (bd : List ℕ) : List ℕ → ℕ → List ℕ → List ℕ
  | [], _, c => c
  | ai :: as, i, c => mulLoop bd as (i + 1) (rowLoop ai bd i c)

/-- The digit-level work of `Int::operator*`: run the convolution loops on a
zero buffer of `size = m + n` digits and normalize. -/
def mulCore (ad bd : List ℕ) : List ℕ :=
  removeLZ (mulLoop bd ad 0 (List.replicate (ad.length + bd.length) 0))

/-- Embeds `Int::operator*`: zero if either operand is zero, otherwise the
convolution digits with the sign rule `sign = (sign_ == rhs.sign_ ? 1 : -1)`. -/
def mulI (x y : PInt) : PInt :=
  if x.sign = 0 ∨ y.sign = 0 then ⟨[], 0⟩
  else ⟨mulCore x.digits y.digits, if x.sign = y.sign then 1 else -1⟩

theorem getD_set_self (l : List ℕ) (k x : ℕ) (h : k < l.length) :
    (l.set k x).getD k 0 = x := by
  induction l generalizing k with
  | nil => simp at h
  | cons d ds ih =>
    rcases k with _ | k
    · simp
    · simp only [List.set_cons_succ, List.getD_cons_succ]
      exact ih k (by simpa using h)

theorem getD_set_ne (l : List ℕ) (k j x : ℕ) (h : k ≠ j) :
    (l.set k x).getD j 0 = l.getD j 0 := by
  induction l generalizing k j with
  | nil => simp
  | cons d ds ih =>
    rcases k with _ | k
    · rcases j with _ | j
      · exact absurd rfl h
      · simp
    · rcases j with _ | j
      · simp
      · simp only [List.set_cons_succ, List.getD_cons_succ]
        exact ih k j (by omega)

theorem fromDigits_set (l : List ℕ) (k x : ℕ) (h : k < l.length) :
    fromDigits (l.set k x) + l.getD k 0 * 10 ^ k = fromDigits l + x * 10 ^ k := by
  induction l generalizing k with
  | nil => simp at h
  | cons d ds ih =>
    rcases k with _ | k
    · simp [fromDigits]
      ring
    · calc fromDigits ((d :: ds).set (k + 1) x) + (d :: ds).getD (k + 1) 0 * 10 ^ (k + 1)
          = d + 10 * (fromDigits (ds.set k x) + ds.getD k 0 * 10 ^ k) := by
            simp only [List.set_cons_succ, List.getD_cons_succ, fromDigits]
            ring
        _ = d + 10 * (fromDigits ds + x * 10 ^ k) := by rw [ih k (by simpa using h)]
        _ = fromDigits (d :: ds) + x * 10 ^ (k + 1) := by
            simp only [fromDigits]
            ring

theorem mulStep_eq (v : ℕ) (c : List ℕ) (k : ℕ) :
    mulStep v c k = (c.set k ((c.getD k 0 + v) % 10)).set (k + 1)
      (c.getD (k + 1) 0 + (c.getD k 0 + v) / 10) := by
  rw [mulStep]
  rw [getD_set_ne c k (k + 1) _ (by omega)]
  rw [List.set_comm _ _ _ (by omega), List.set_set]

theorem mulStep_length (v : ℕ) (c : List ℕ) (k : ℕ) :
    (mulStep v c k).length = c.length := by
  rw [mulStep_eq]
  simp

theorem mulStep_value (v : ℕ) (c : List ℕ) (k : ℕ) (h : k + 1 < c.length) :
    fromDigits (mulStep v c k) = fromDigits c + v * 10 ^ k := by
  rw [mulStep_eq]
  have h1 := fromDigits_set c k ((c.getD k 0 + v) % 10) (by omega)
  have h2 := fromDigits_set (c.set k ((c.getD k 0 + v) % 10)) (k + 1)
    (c.getD (k + 1) 0 + (c.getD k 0 + v) / 10) (by simpa using h)
  rw [getD_set_ne c k (k + 1) _ (by omega)] at h2
  have hmod : (c.getD k 0 + v) % 10 + 10 * ((c.getD k 0 + v) / 10) =
      c.getD k 0 + v := Nat.mod_add_div _ _
  zify at h1 h2 hmod ⊢
  linear_combination h1 + h2 + (10 : ℤ) ^ k * hmod

theorem mulStep_getD_self (v : ℕ) (c : List ℕ) (k : ℕ) (h : k < c.length) :
    (mulStep v c k).getD k 0 = (c.getD k 0 + v) % 10 := by
  rw [mulStep_eq, getD_set_ne _ (k + 1) k _ (by omega), getD_set_self _ _ _ h]

theorem mulStep_getD_next (v : ℕ) (c : List ℕ) (k : ℕ) (h : k + 1 < c.length) :
    (mulStep v c k).getD (k + 1) 0 = c.getD (k + 1) 0 + (c.getD k 0 + v) / 10 := by
  rw [mulStep_eq, getD_set_self _ _ _ (by simpa using h)]

theorem mulStep_getD_other (v : ℕ) (c : List ℕ) (k j : ℕ) (h1 : j ≠ k)
    (h2 : j ≠ k + 1) : (mulStep v c k).getD j 0 = c.getD j 0 := by
  rw [mulStep_eq, getD_set_ne _ (k + 1) j _ (by omega), getD_set_ne _ k j _ (by omega)]

theorem rowLoop_length (ai : ℕ) (bs : List ℕ) (k : ℕ) (c : List ℕ) :
    (rowLoop ai bs k c).length = c.length := by
  induction bs generalizing k c with
  | nil => rfl
  | cons bj bs ih => rw [rowLoop, ih, mulStep_length]

theorem rowLoop_value (ai : ℕ) (bs : List ℕ) (k : ℕ) (c : List ℕ)
    (h : k + bs.length < c.length) :
    fromDigits (rowLoop ai bs k c) = fromDigits c + ai * fromDigits bs * 10 ^ k := by
  induction bs generalizing k c with
  | nil => simp [rowLoop, fromDigits]
  | cons bj bs ih =>
    rw [rowLoop, ih _ _ (by rw [mulStep_length]; simp at h; omega),
      mulStep_value _ _ _ (by simp at h; omega)]
    simp only [fromDigits]
    have hp : (10 : ℕ) ^ (k + 1) = 10 * 10 ^ k := by ring
    rw [hp]
    ring

theorem mulLoop_length (bd as : List ℕ) (i : ℕ) (c : List ℕ) :
    (mulLoop bd as i c).length = c.length := by
  induction as generalizing i c with
  | nil => rfl
  | cons ai as ih => rw [mulLoop, ih, rowLoop_length]

theorem mulLoop_value (bd as : List ℕ) (i : ℕ) (c : List ℕ)
    (hbd : bd ≠ []) (h : i + as.length + bd.length ≤ c.length) :
    fromDigits (mulLoop bd as i c) =
      fromDigits c + fromDigits as * fromDigits bd * 10 ^ i := by
  induction as generalizing i c with
  | nil => simp [mulLoop, fromDigits]
  | cons ai as ih =>
    have hbdlen : 1 ≤ bd.length := by
      rcases bd with _ | _
      · exact absurd rfl hbd
      · simp
    rw [mulLoop, ih _ _ (by rw [rowLoop_length]; simp at h; omega),
      rowLoop_value _ _ _ _ (by simp at h; omega)]
    simp only [fromDigits]
    have hp : (10 : ℕ) ^ (i + 1) = 10 * 10 ^ i := by ring
    rw [hp]
    push_cast
    ring

theorem getD_replicate_zero (n j : ℕ) : (List.replicate n 0).getD j 0 = 0 := by
  induction n generalizing j with
  | zero => simp
  | succ n ih =>
    rcases j with _ | j
    · simp [List.replicate_succ]
    · simp only [List.replicate_succ, List.getD_cons_succ]
      exact ih j

theorem getD_mul_pow_le (l : List ℕ) (m : ℕ) : l.getD m 0 * 10 ^ m ≤ fromDigits l := by
  induction l generalizing m with
  | nil => simp
  | cons d ds ih =>
    rcases m with _ | m
    · simp [fromDigits]
    · simp only [List.getD_cons_succ, fromDigits]
      calc ds.getD m 0 * 10 ^ (m + 1) = 10 * (ds.getD m 0 * 10 ^ m) := by ring
        _ ≤ 10 * fromDigits ds := by
            have := ih m
            omega
        _ ≤ d + 10 * fromDigits ds := by omega

theorem mem_le_of_getD (l : List ℕ) (h : ∀ j, j < l.length → l.getD j 0 ≤ 9) :
    ∀ d ∈ l, d ≤ 9 := by
  induction l with
  | nil => simp
  | cons x xs ih =>
    intro d hd
    rcases List.mem_cons.mp hd with hd | hd
    · subst hd
      have := h 0 (by simp)
      simpa using this
    · exact ih (fun j hj => by
        have := h (j + 1) (by simp; omega)
        simpa using this) d hd

/-- Digit-range invariant for one row of the multiplication: entering row `i`
every slot is a digit except the slot `k + bs.length - 1` carrying at most 19
(the previous row's spill), and the current column can carry up to 28 when the
row has a single step; afterwards every slot is a digit except the slot one
past the row, which carries at most 19. -/
theorem rowLoop_range (ai : ℕ) (bs : List ℕ) (k : ℕ) (c : List ℕ)
    (hai : ai ≤ 9) (hbs : ∀ d ∈ bs, d ≤ 9) (hne : bs ≠ [])
    (hlen : k + bs.length < c.length)
    (hother : ∀ j, j ≠ k → j ≠ k + bs.length - 1 → c.getD j 0 ≤ 9)
    (hfront : c.getD k 0 ≤ if bs.length = 1 then 28 else 18)
    (hspec : bs.length ≠ 1 → c.getD (k + bs.length - 1) 0 ≤ 19) :
    (∀ j, j ≠ k + bs.length → (rowLoop ai bs k c).getD j 0 ≤ 9) ∧
    (rowLoop ai bs k c).getD (k + bs.length) 0 ≤ 19 := by
  induction bs generalizing k c with
  | nil => exact absurd rfl hne
  | cons bj bs ih =>
    have hbj : bj ≤ 9 := hbs bj (by simp)
    have hv : ai * bj ≤ 81 := Nat.mul_le_mul hai hbj
    have hlen2 : k + bs.length + 1 < c.length := by
      simpa [Nat.add_assoc, Nat.add_comm] using hlen
    rcases bs with _ | ⟨b2, bs2⟩
    · -- last digit of the row: one `mulStep`, spill lands one past the row
      have hc28 : c.getD k 0 ≤ 28 := by simpa using hfront
      have hrow : rowLoop ai [bj] k c = mulStep (ai * bj) c k := rfl
      rw [hrow]
      constructor
      · intro j hj
        simp only [List.length_singleton] at hj
        by_cases hjk : j = k
        · subst hjk
          rw [mulStep_getD_self _ _ _ (by omega)]
          omega
        · rw [mulStep_getD_other _ _ _ _ hjk (by omega)]
          exact hother j hjk (by simp [hjk])
      · simp only [List.length_singleton]
        rw [mulStep_getD_next _ _ _ (by omega)]
        have h9 : c.getD (k + 1) 0 ≤ 9 := hother (k + 1) (by omega) (by simp)
        have hdiv : (c.getD k 0 + ai * bj) / 10 ≤ 10 := by omega
        omega
    · -- more digits follow: one `mulStep`, then induct on the rest of the row
      have hlb2 : (b2 :: bs2).length = bs2.length + 1 := by simp
      have hfull : (bj :: b2 :: bs2).length = bs2.length + 2 := by simp
      have hc18 : c.getD k 0 ≤ 18 := by
        rw [hfull] at hfront
        simpa using hfront
      have ht : c.getD k 0 + ai * bj ≤ 99 := by omega
      have htdiv : (c.getD k 0 + ai * bj) / 10 ≤ 9 := by omega
      have hrow : rowLoop ai (bj :: b2 :: bs2) k c =
          rowLoop ai (b2 :: bs2) (k + 1) (mulStep (ai * bj) c k) := rfl
      rw [hrow]
      have hml := mulStep_length (ai * bj) c k
      have hres := ih (k + 1) (mulStep (ai * bj) c k)
        (fun d hd => hbs d (by simp [hd])) (by simp)
        (by rw [hml, hlb2]; rw [hfull] at hlen; omega)
        (by
          intro j hj1 hj2
          rw [hlb2] at hj2
          by_cases hjk : j = k
          · subst hjk
            rw [mulStep_getD_self _ _ _ (by omega)]
            omega
          · rw [mulStep_getD_other _ _ _ _ hjk hj1]
            refine hother j hjk ?_
            rw [hfull]
            omega)
        (by
          rw [mulStep_getD_next _ _ _ (by omega), hlb2]
          by_cases hL : bs2.length = 0
          · -- next step is the last one: its column held the previous spill
            rw [if_pos (by omega)]
            have h19 : c.getD (k + 1) 0 ≤ 19 := by
              have := hspec (by rw [hfull]; omega)
              rw [hfull] at this
              simpa [show k + (bs2.length + 2) - 1 = k + 1 from by omega] using this
            omega
          · rw [if_neg (by omega)]
            have h9 : c.getD (k + 1) 0 ≤ 9 := by
              refine hother (k + 1) (by omega) ?_
              rw [hfull]
              omega
            omega)
        (by
          intro hL
          rw [hlb2] at hL ⊢
          rw [mulStep_getD_other _ _ _ _ (by omega) (by omega)]
          have := hspec (by rw [hfull]; omega)
          rw [hfull] at this
          have he : k + (bs2.length + 2) - 1 = k + 1 + (bs2.length + 1) - 1 := by omega
          rwa [he] at this)
      obtain ⟨ho, hs⟩ := hres
      rw [hlb2] at ho hs
      rw [hfull]
      constructor
      · intro j hj
        refine ho j ?_
        omega
      · have he : k + 1 + (bs2.length + 1) = k + (bs2.length + 2) := by omega
        rwa [he] at hs

/-- Digit-range invariant across the rows of the multiplication. -/
theorem mulLoop_range (bd as : List ℕ) (i : ℕ) (c : List ℕ)
    (has : ∀ d ∈ as, d ≤ 9) (hbd : ∀ d ∈ bd, d ≤ 9) (hbdne : bd ≠ [])
    (hlen : i + as.length + bd.length ≤ c.length)
    (hother : ∀ j, j ≠ i + bd.length - 1 → c.getD j 0 ≤ 9)
    (hspec : c.getD (i + bd.length - 1) 0 ≤ 19) :
    (∀ j, j ≠ i + as.length + bd.length - 1 → (mulLoop bd as i c).getD j 0 ≤ 9) ∧
    (mulLoop bd as i c).getD (i + as.length + bd.length - 1) 0 ≤ 19 := by
  induction as generalizing i c with
  | nil =>
    constructor
    · intro j hj
      exact hother j (by simpa using hj)
    · simpa using hspec
  | cons ai as ih =>
    have hbdlen : 1 ≤ bd.length := by
      rcases bd with _ | _
      · exact absurd rfl hbdne
      · simp
    have hrowlen := rowLoop_length ai bd i c
    obtain ⟨hro, hrs⟩ := rowLoop_range ai bd i c (has ai (by simp)) hbd hbdne
      (by simp at hlen; omega)
      (fun j hj1 hj2 => hother j hj2)
      (by
        by_cases hL : bd.length = 1
        · rw [if_pos hL]
          have := hspec
          rw [show i + bd.length - 1 = i from by omega] at this
          omega
        · rw [if_neg hL]
          have := hother i (by omega)
          omega)
      (fun _ => hspec)
    have hstep : mulLoop bd (ai :: as) i c = mulLoop bd as (i + 1) (rowLoop ai bd i c) :=
      rfl
    rw [hstep]
    obtain ⟨hfin1, hfin2⟩ := ih (i + 1) (rowLoop ai bd i c)
      (fun d hd => has d (by simp [hd]))
      (by rw [hrowlen]; simp at hlen ⊢; omega)
      (by
        intro j hj
        refine hro j ?_
        omega)
      (by
        have he : i + 1 + bd.length - 1 = i + bd.length := by omega
        rw [he]
        exact hrs)
    constructor
    · intro j hj
      refine hfin1 j ?_
      simp at hj ⊢
      omega
    · have he : i + 1 + as.length + bd.length - 1 =
          i + (ai :: as).length + bd.length - 1 := by simp; omega
      rwa [he] at hfin2

theorem mulCore_spec (u v : List ℕ) (hu : ∀ d ∈ u, d ≤ 9) (hv : ∀ d ∈ v, d ≤ 9)
    (hune : u ≠ []) (hvne : v ≠ []) :
    fromDigits (mulCore u v) = fromDigits u * fromDigits v ∧
    (∀ d ∈ mulCore u v, d ≤ 9) ∧ (mulCore u v).getLast? ≠ some 0 := by
  have hu1 : 1 ≤ u.length := by
    rcases u with _ | _
    · exact absurd rfl hune
    · simp
  have hv1 : 1 ≤ v.length := by
    rcases v with _ | _
    · exact absurd rfl hvne
    · simp
  have hval := mulLoop_value v u 0 (List.replicate (u.length + v.length) 0) hvne
    (by simp)
  rw [fromDigits_replicate_zero] at hval
  simp only [zero_add, pow_zero, mul_one] at hval
  obtain ⟨hr1, hr2⟩ := mulLoop_range v u 0 (List.replicate (u.length + v.length) 0)
    hu hv hvne (by simp)
    (fun j _ => by rw [getD_replicate_zero]; omega)
    (by rw [getD_replicate_zero]; omega)
  have hlenF : (mulLoop v u 0 (List.replicate (u.length + v.length) 0)).length =
      u.length + v.length := by
    rw [mulLoop_length]
    simp
  have htop : (mulLoop v u 0 (List.replicate (u.length + v.length) 0)).getD
      (u.length + v.length - 1) 0 ≤ 9 := by
    by_contra hc
    push_neg at hc
    have h1 := getD_mul_pow_le (mulLoop v u 0 (List.replicate (u.length + v.length) 0))
      (u.length + v.length - 1)
    rw [hval] at h1
    have h2 := fromDigits_lt u hu
    have h3 := fromDigits_lt v hv
    have h4 : (fromDigits u + 1) * (fromDigits v + 1) ≤ 10 ^ u.length * 10 ^ v.length :=
      Nat.mul_le_mul (by omega) (by omega)
    have h5 : (fromDigits u + 1) * (fromDigits v + 1) =
        fromDigits u * fromDigits v + fromDigits u + fromDigits v + 1 := by ring
    have h6 : 10 ^ u.length * 10 ^ v.length = 10 ^ (u.length + v.length) :=
      (pow_add 10 _ _).symm
    have h7 : 10 ^ (u.length + v.length) = 10 * 10 ^ (u.length + v.length - 1) := by
      conv_lhs => rw [show u.length + v.length = (u.length + v.length - 1) + 1 from by
        omega]
      rw [pow_succ']
    have h8 : 10 * 10 ^ (u.length + v.length - 1) ≤
        (mulLoop v u 0 (List.replicate (u.length + v.length) 0)).getD
          (u.length + v.length - 1) 0 * 10 ^ (u.length + v.length - 1) :=
      Nat.mul_le_mul_right _ hc
    omega
  have hall : ∀ d ∈ mulLoop v u 0 (List.replicate (u.length + v.length) 0), d ≤ 9 := by
    refine mem_le_of_getD _ ?_
    intro j hj
    by_cases hjT : j = u.length + v.length - 1
    · subst hjT
      exact htop
    · exact hr1 j (by omega)
  refine ⟨?_, ?_, ?_⟩
  · rw [mulCore, fromDigits_removeLZ, hval]
  · intro d hd
    rw [mulCore] at hd
    exact hall d (removeLZ_mem hd)
  · rw [mulCore]
    exact removeLZ_getLast? _

theorem mulI_spec (x y : PInt) (hx : Valid x) (hy : Valid y) :
    toZ (mulI x y) = toZ x * toZ y ∧ Valid (mulI x y) := by
  by_cases hz : x.sign = 0 ∨ y.sign = 0
  · rw [mulI, if_pos hz]
    constructor
    · have h0 : toZ ⟨[], 0⟩ = 0 := by simp [toZ]
      rw [h0]
      symm
      rcases hz with h | h
      · rw [toZ_zero_of x hx h]
        ring
      · rw [toZ_zero_of y hy h]
        ring
    · decide
  · push_neg at hz
    obtain ⟨hx9, hxn, hx0, hxs⟩ := hx
    obtain ⟨hy9, hyn, hy0, hys⟩ := hy
    have hxe : x.digits ≠ [] := fun hc => hz.1 (hx0.mpr hc)
    have hye : y.digits ≠ [] := fun hc => hz.2 (hy0.mpr hc)
    obtain ⟨hval, h9, hlast⟩ := mulCore_spec x.digits y.digits hx9 hy9 hxe hye
    have hxp := fromDigits_pos x.digits hxe hxn
    have hyp := fromDigits_pos y.digits hye hyn
    have hne : mulCore x.digits y.digits ≠ [] := by
      intro hc
      rw [hc] at hval
      have h00 : fromDigits ([] : List ℕ) = 0 := rfl
      rw [h00] at hval
      have := Nat.mul_pos hxp hyp
      omega
    have hznot : ¬(x.sign = 0 ∨ y.sign = 0) := by
      rintro (h | h)
      · exact hz.1 h
      · exact hz.2 h
    constructor
    · rw [mulI, if_neg hznot]
      simp only [toZ]
      rw [hval]
      rcases hxs with h1 | h1 | h1 <;> rcases hys with h2 | h2 | h2 <;>
        first
        | (exact absurd h1 hz.1)
        | (exact absurd h2 hz.2)
        | (rw [h1, h2]
           first
           | rw [if_pos rfl]
           | rw [if_neg (by norm_num)]
           push_cast
           ring)
    · rw [mulI, if_neg hznot]
      have hsopt : (if x.sign = y.sign then (1 : ℤ) else -1) = 1 ∨
          (if x.sign = y.sign then (1 : ℤ) else -1) = -1 := by
        by_cases hss : x.sign = y.sign
        · rw [if_pos hss]
          exact Or.inl rfl
        · rw [if_neg hss]
          exact Or.inr rfl
      refine ⟨h9, hlast, ⟨fun hc => ?_, fun hc => absurd hc hne⟩, ?_⟩
      · rcases hsopt with h | h <;> rw [h] at hc <;> norm_num at hc
      · rcases hsopt with h | h
        · exact Or.inl h
        · exact Or.inr (Or.inr h)

/-! ### Division and remainder (`Int::operator/`, `Int::operator%`) -/

/-- The inner loop of `Int::operator/` and `Int::operator%`:
`while (num1 >= tmp) { result.digits_[i]++; num1 -= tmp; }`.
Returns the number of subtractions (the quotient digit) and the remaining
value.  The fuel only bounds the recursion; the callers pass provably enough
(`fromDigits num1.digits + 1` exceeds any possible subtraction count). -/
def subIter : ℕ → PInt → PInt → ℕ × PInt
  | 0, num1, _ => (0, num1)
  | f + 1, num1, tmp =>
    if 0 ≤ cmp num1 tmp then
      let r := subIter f (sub num1 tmp) tmp
      (r.1 + 1, r.2)
    else (0, num1)

/-- The outer loop shared by `Int::operator/` and `Int::operator%`: for
`i = size-1 .. 0`, first drop the least significant digit of `tmp` (so `tmp`
becomes `rhs * 10^i`), then run the trial subtractions, recording the count in
`result.digits_[i]`.  (`operator%` runs the identical loop and simply never
reads the recorded counts.)  Returns the remaining value and the quotient
digit vector. -/
def divLoop : ℕ → PInt → List ℕ → List ℕ → PInt × List ℕ
  | 0, num1, _, res => (num1, res)
  | i + 1, num1, tmpd, res =>
    let tmpd' := tmpd.tail
    let r := subIter (fromDigits num1.digits + 1) num1 ⟨tmpd', 1⟩
    divLoop i r.2 tmpd' (res.set i r.1)

/-- Embeds the body of `Int::operator/` after the divide-by-zero check. -/
def divCore (x y : PInt) : PInt :=
  if x.digits.length < y.digits.length then ⟨[], 0⟩
  else
    let size := x.digits.length - y.digits.length + 1
    let r := divLoop size (absI x) (List.replicate size 0 ++ y.digits)
      (List.replicate size 0)
    let d := removeLZ r.2
    ⟨d, if d = [] then 0 else (if x.sign = y.sign then 1 else -1)⟩

/-- Embeds the body of `Int::operator%` after the divide-by-zero check. -/
def modCore (x y : PInt) : PInt :=
  if x.digits.length < y.digits.length then x
  else
    let size := x.digits.length - y.digits.length + 1
    let r := divLoop size (absI x) (List.replicate size 0 ++ y.digits)
      (List.replicate size 0)
    let d := removeLZ r.1.digits
    ⟨d, if d = [] then 0 else x.sign⟩

/-- Embeds `Int::operator/` including the divide-by-zero error. -/
def divI (x y : PInt) : Except String PInt :=
  if y.sign = 0 then .error "Error: Divide by zero." else .ok (divCore x y)

/-- Embeds `Int::operator%` including the divide-by-zero error. -/
def modI (x y : PInt) : Except String PInt :=
  if y.sign = 0 then .error "Error: Divide by zero." else .ok (modCore x y)

/-- The quotient digits recorded by the division loop, before normalization
(one entry per position, each the number of inner-loop subtractions there). -/
def divQuotientDigits (x y : PInt) : List ℕ :=
  let size := x.digits.length - y.digits.length + 1
  (divLoop size (absI x) (List.replicate size 0 ++ y.digits)
    (List.replicate size 0)).2

theorem sign_nonneg_iff (z : ℤ) : 0 ≤ Int.sign z ↔ 0 ≤ z := by
  constructor
  · intro h
    by_contra hc
    push_neg at hc
    have := (sign_lt_zero_iff z).mpr hc
    omega
  · intro h
    by_contra hc
    push_neg at hc
    have := (sign_lt_zero_iff z).mp hc
    omega

theorem toZ_nonneg_eq (x : PInt) (hx : Valid x) (h : 0 ≤ toZ x) :
    toZ x = fromDigits x.digits := by
  rcases hx.2.2.2 with h1 | h1 | h1
  · rw [toZ, h1, one_mul]
  · rw [toZ, h1, zero_mul, hx.2.2.1.mp h1]
    rfl
  · have := toZ_neg_of x hx h1
    omega

theorem subIter_spec (f : ℕ) (num1 tmp : PInt) (h1 : Valid num1) (ht : Valid tmp)
    (hn : 0 ≤ toZ num1) (htp : 0 < toZ tmp)
    (hf : (toZ num1).toNat / (toZ tmp).toNat < f) :
    (subIter f num1 tmp).1 = (toZ num1).toNat / (toZ tmp).toNat ∧
    Valid (subIter f num1 tmp).2 ∧
    toZ (subIter f num1 tmp).2 =
      toZ num1 - ((toZ num1).toNat / (toZ tmp).toNat : ℕ) * toZ tmp ∧
    0 ≤ toZ (subIter f num1 tmp).2 ∧ toZ (subIter f num1 tmp).2 < toZ tmp := by
  induction f generalizing num1 with
  | zero => exact absurd hf (Nat.not_lt_zero _)
  | succ f ih =>
    have htn : 0 < (toZ tmp).toNat := by omega
    rw [subIter]
    have hcmp := cmp_correct num1 tmp h1 ht
    by_cases hge : toZ tmp ≤ toZ num1
    · have hguard : 0 ≤ cmp num1 tmp := by
        rw [hcmp]
        exact (sign_nonneg_iff _).mpr (by omega)
      rw [if_pos hguard]
      obtain ⟨hsv, hsval⟩ := sub_spec num1 tmp h1 ht
      have hn' : 0 ≤ toZ (sub num1 tmp) := by omega
      have hdiveq : (toZ num1).toNat / (toZ tmp).toNat =
          ((toZ (sub num1 tmp)).toNat / (toZ tmp).toNat) + 1 := by
        have h2 : (toZ tmp).toNat ≤ (toZ num1).toNat := by omega
        have h3 : (toZ (sub num1 tmp)).toNat = (toZ num1).toNat - (toZ tmp).toNat := by
          omega
        rw [h3]
        exact Nat.div_eq_sub_div htn h2
      have hf' : (toZ (sub num1 tmp)).toNat / (toZ tmp).toNat < f := by omega
      obtain ⟨ih1, ih2, ih3, ih4, ih5⟩ := ih (sub num1 tmp) hsval hn' hf'
      refine ⟨?_, ih2, ?_, ih4, ih5⟩
      · show (subIter f (sub num1 tmp) tmp).1 + 1 = _
        rw [ih1, hdiveq]
      · show toZ (subIter f (sub num1 tmp) tmp).2 = _
        rw [ih3, hdiveq, hsv]
        push_cast
        ring
    · push_neg at hge
      have hguard : ¬(0 ≤ cmp num1 tmp) := by
        rw [hcmp]
        intro hc
        have := (sign_nonneg_iff _).mp hc
        omega
      rw [if_neg hguard]
      have hq0 : (toZ num1).toNat / (toZ tmp).toNat = 0 :=
        Nat.div_eq_of_lt (by omega)
      rw [hq0]
      refine ⟨rfl, h1, by push_cast; ring, hn, hge⟩

theorem fromDigits_take_succ (l : List ℕ) (i : ℕ) (h : i < l.length) :
    fromDigits (l.take (i + 1)) = fromDigits (l.take i) + l.getD i 0 * 10 ^ i := by
  induction l generalizing i with
  | nil => simp at h
  | cons d ds ih =>
    rcases i with _ | i
    · simp [fromDigits]
    · simp only [List.take_succ_cons, fromDigits, List.getD_cons_succ]
      rw [ih i (by simpa using h)]
      ring

theorem divLoop_spec (i : ℕ) (num1 : PInt) (bd res : List ℕ)
    (hb9 : ∀ d ∈ bd, d ≤ 9) (hbn : bd.getLast? ≠ some 0) (hbne : bd ≠ [])
    (h1 : Valid num1) (hn : 0 ≤ toZ num1)
    (hub : toZ num1 < (fromDigits bd : ℤ) * 10 ^ i)
    (hlen : i ≤ res.length) :
    Valid (divLoop i num1 (List.replicate i 0 ++ bd) res).1 ∧
    0 ≤ toZ (divLoop i num1 (List.replicate i 0 ++ bd) res).1 ∧
    toZ (divLoop i num1 (List.replicate i 0 ++ bd) res).1 < fromDigits bd ∧
    (divLoop i num1 (List.replicate i 0 ++ bd) res).2.length = res.length ∧
    (∀ j, j < i → (divLoop i num1 (List.replicate i 0 ++ bd) res).2.getD j 0 ≤ 9) ∧
    (∀ j, i ≤ j → (divLoop i num1 (List.replicate i 0 ++ bd) res).2.getD j 0 =
      res.getD j 0) ∧
    toZ num1 =
      (fromDigits ((divLoop i num1 (List.replicate i 0 ++ bd) res).2.take i) : ℤ) *
        fromDigits bd + toZ (divLoop i num1 (List.replicate i 0 ++ bd) res).1 := by
  have hbp : 0 < fromDigits bd := fromDigits_pos bd hbne hbn
  induction i generalizing num1 res with
  | zero =>
    refine ⟨h1, hn, by simpa using hub, rfl, ?_, fun j _ => rfl, ?_⟩
    · intro j hj
      omega
    · have h0 : fromDigits (((divLoop 0 num1 (List.replicate 0 0 ++ bd) res).2).take 0)
          = 0 := rfl
      have hfst : (divLoop 0 num1 (List.replicate 0 0 ++ bd) res).1 = num1 := rfl
      rw [h0, hfst]
      push_cast
      ring
  | succ i ih =>
    -- the shifted divisor for this position
    have htmp9 : ∀ d ∈ List.replicate i 0 ++ bd, d ≤ 9 := by
      intro d hd
      rcases List.mem_append.mp hd with hd | hd
      · have := List.eq_of_mem_replicate hd
        omega
      · exact hb9 d hd
    have htmplast : (List.replicate i 0 ++ bd).getLast? ≠ some 0 := by
      rw [List.getLast?_append_of_ne_nil _ hbne]
      exact hbn
    have htmpne : List.replicate i 0 ++ bd ≠ [] := by
      intro hc
      exact hbne (by simpa using (List.append_eq_nil.mp hc).2)
    have htmpv : Valid ⟨List.replicate i 0 ++ bd, 1⟩ :=
      ⟨htmp9, htmplast, ⟨by norm_num, fun hc => absurd hc htmpne⟩, Or.inl rfl⟩
    have htmpval : toZ ⟨List.replicate i 0 ++ bd, 1⟩ =
        ((10 : ℤ) ^ i) * fromDigits bd := by
      show (1 : ℤ) * (fromDigits (List.replicate i 0 ++ bd) : ℤ) = _
      rw [fromDigits_append, fromDigits_replicate_zero]
      push_cast
      simp
    have htp : 0 < toZ ⟨List.replicate i 0 ++ bd, 1⟩ := by
      rw [htmpval]
      positivity
    have hn1eq : toZ num1 = fromDigits num1.digits := toZ_nonneg_eq num1 h1 hn
    have hfuel : (toZ num1).toNat / (toZ ⟨List.replicate i 0 ++ bd, 1⟩).toNat <
        fromDigits num1.digits + 1 := by
      have : (toZ num1).toNat = fromDigits num1.digits := by omega
      calc (toZ num1).toNat / (toZ ⟨List.replicate i 0 ++ bd, 1⟩).toNat ≤
          (toZ num1).toNat := Nat.div_le_self _ _
        _ < fromDigits num1.digits + 1 := by omega
    obtain ⟨hrq, hrv, hrval, hrn, hrlt⟩ :=
      subIter_spec (fromDigits num1.digits + 1) num1 ⟨List.replicate i 0 ++ bd, 1⟩
        h1 htmpv hn htp hfuel
    -- the quotient digit is at most 9
    have htn : (toZ ⟨List.replicate i 0 ++ bd, 1⟩).toNat = 10 ^ i * fromDigits bd := by
      have hc : ((10 ^ i * fromDigits bd : ℕ) : ℤ) = (10 : ℤ) ^ i * fromDigits bd := by
        push_cast
        ring
      rw [htmpval, ← hc, Int.toNat_natCast]
    have hq9 : (toZ num1).toNat / (toZ ⟨List.replicate i 0 ++ bd, 1⟩).toNat ≤ 9 := by
      have hub' : (toZ num1).toNat < 10 * (10 ^ i * fromDigits bd) := by
        have h2 : toZ num1 < (fromDigits bd : ℤ) * 10 ^ (i + 1) := hub
        have h3 : ((10 : ℕ) * (10 ^ i * fromDigits bd) : ℤ) =
            (fromDigits bd : ℤ) * 10 ^ (i + 1) := by
          push_cast
          ring
        omega
      have hkpos : 0 < (toZ ⟨List.replicate i 0 ++ bd, 1⟩).toNat := by
        rw [htn]
        positivity
      have hlt10 : (toZ num1).toNat < 10 * (toZ ⟨List.replicate i 0 ++ bd, 1⟩).toNat := by
        rw [htn]
        exact hub'
      have := (Nat.div_lt_iff_lt_mul hkpos).mpr hlt10
      omega
    -- unfold one iteration of the loop
    have hstep : divLoop (i + 1) num1 (List.replicate (i + 1) 0 ++ bd) res =
        divLoop i (subIter (fromDigits num1.digits + 1) num1
            ⟨List.replicate i 0 ++ bd, 1⟩).2
          (List.replicate i 0 ++ bd)
          (res.set i (subIter (fromDigits num1.digits + 1) num1
            ⟨List.replicate i 0 ++ bd, 1⟩).1) := rfl
    have hub2 : toZ (subIter (fromDigits num1.digits + 1) num1
        ⟨List.replicate i 0 ++ bd, 1⟩).2 < (fromDigits bd : ℤ) * 10 ^ i := by
      rw [htmpval] at hrlt
      have : ((10 : ℤ) ^ i) * fromDigits bd = (fromDigits bd : ℤ) * 10 ^ i := by ring
      omega
    have hlen2 : i ≤ (res.set i (subIter (fromDigits num1.digits + 1) num1
        ⟨List.replicate i 0 ++ bd, 1⟩).1).length := by
      rw [List.length_set]
      omega
    obtain ⟨f1, f2, f3, f4, f5, f6, f7⟩ := ih
      (subIter (fromDigits num1.digits + 1) num1 ⟨List.replicate i 0 ++ bd, 1⟩).2
      (res.set i (subIter (fromDigits num1.digits + 1) num1
        ⟨List.replicate i 0 ++ bd, 1⟩).1)
      hrv hrn hub2 hlen2
    rw [hstep]
    have hlenF : (divLoop i (subIter (fromDigits num1.digits + 1) num1
        ⟨List.replicate i 0 ++ bd, 1⟩).2 (List.replicate i 0 ++ bd)
        (res.set i (subIter (fromDigits num1.digits + 1) num1
          ⟨List.replicate i 0 ++ bd, 1⟩).1)).2.length = res.length := by
      rw [f4, List.length_set]
    have hgdi : (divLoop i (subIter (fromDigits num1.digits + 1) num1
        ⟨List.replicate i 0 ++ bd, 1⟩).2 (List.replicate i 0 ++ bd)
        (res.set i (subIter (fromDigits num1.digits + 1) num1
          ⟨List.replicate i 0 ++ bd, 1⟩).1)).2.getD i 0 =
        (subIter (fromDigits num1.digits + 1) num1
          ⟨List.replicate i 0 ++ bd, 1⟩).1 := by
      rw [f6 i (le_refl i), getD_set_self _ _ _ (by omega)]
    refine ⟨f1, f2, f3, hlenF, ?_, ?_, ?_⟩
    · intro j hj
      by_cases hji : j = i
      · subst hji
        rw [hgdi, hrq]
        exact hq9
      · exact f5 j (by omega)
    · intro j hj
      rw [f6 j (by omega), getD_set_ne _ _ _ _ (by omega)]
    · have htake := fromDigits_take_succ
        ((divLoop i (subIter (fromDigits num1.digits + 1) num1
          ⟨List.replicate i 0 ++ bd, 1⟩).2 (List.replicate i 0 ++ bd)
          (res.set i (subIter (fromDigits num1.digits + 1) num1
            ⟨List.replicate i 0 ++ bd, 1⟩).1)).2) i (by omega)
      rw [htake, hgdi]
      rw [← hrq] at hrval
      push_cast
      linear_combination f7 - hrval +
        (((subIter (fromDigits num1.digits + 1) num1
            ⟨List.replicate i 0 ++ bd, 1⟩).1 : ℕ) : ℤ) * htmpval

/-- The running remainder left by the division loop (the final value of `num1`
in `operator/`, equivalently of `result` in `operator%`). -/
def divRem (x y : PInt) : PInt :=
  let size := x.digits.length - y.digits.length + 1
  (divLoop size (absI x) (List.replicate size 0 ++ y.digits)
    (List.replicate size 0)).1

theorem absI_digits (x : PInt) : (absI x).digits = x.digits := by
  rw [absI]
  split <;> rfl

theorem abs_toZ (x : PInt) (hx : Valid x) : |toZ x| = fromDigits x.digits := by
  have h1 := toZ_absI x hx
  have h2 := toZ_nonneg_eq (absI x) (absI_valid x hx) (by rw [h1]; positivity)
  rw [← h1, h2, absI_digits]

theorem sign_mul_abs (x : PInt) (hx : Valid x) : toZ x = x.sign * |toZ x| := by
  rcases hx.2.2.2 with h1 | h1 | h1
  · have := toZ_pos_of x hx h1
    rw [h1, one_mul, abs_of_pos this]
  · rw [toZ_zero_of x hx h1, h1]
    ring
  · have := toZ_neg_of x hx h1
    rw [h1, abs_of_neg this]
    ring

theorem divCore_eq (x y : PInt) (h : ¬x.digits.length < y.digits.length) :
    divCore x y = ⟨removeLZ (divQuotientDigits x y),
      if removeLZ (divQuotientDigits x y) = [] then 0
      else if x.sign = y.sign then 1 else -1⟩ := by
  rw [divCore, if_neg h]
  rfl

theorem modCore_eq (x y : PInt) (h : ¬x.digits.length < y.digits.length) :
    modCore x y = ⟨removeLZ (divRem x y).digits,
      if removeLZ (divRem x y).digits = [] then 0 else x.sign⟩ := by
  rw [modCore, if_neg h]
  rfl

/-- Main correctness of `operator/` and `operator%` on valid values with a
nonzero divisor: both results are valid, the Euclidean identity
`x == (x/y)*y + x%y` holds, the remainder is smaller than the divisor in
magnitude, and its sign is zero or the dividend's. -/
theorem divModCore_spec (x y : PInt) (hx : Valid x) (hy : Valid y)
    (hy0 : toZ y ≠ 0) :
    Valid (divCore x y) ∧ Valid (modCore x y) ∧
    toZ x = toZ (divCore x y) * toZ y + toZ (modCore x y) ∧
    |toZ (modCore x y)| < |toZ y| ∧
    ((modCore x y).sign = 0 ∨ (modCore x y).sign = x.sign) ∧
    (Int.sign (toZ (modCore x y)) = 0 ∨
      Int.sign (toZ (modCore x y)) = Int.sign (toZ x)) ∧
    (toZ y ∣ toZ x → toZ (modCore x y) = 0) := by
  have hysne : y.sign ≠ 0 := fun hc => hy0 (toZ_zero_of y hy hc)
  have hye : y.digits ≠ [] := fun hc => hysne (hy.2.2.1.mpr hc)
  have hyp : 0 < fromDigits y.digits := fromDigits_pos _ hye hy.2.1
  have hyabs : |toZ y| = fromDigits y.digits := abs_toZ y hy
  have hy1 : 1 ≤ y.digits.length := by
    rcases hyl : y.digits with _ | _
    · exact absurd hyl hye
    · simp
  by_cases hlen : x.digits.length < y.digits.length
  · -- dividend has fewer digits: quotient 0, remainder is the dividend
    have hxlt : |toZ x| < |toZ y| := by
      rw [abs_toZ x hx, hyabs]
      have h1 := fromDigits_lt x.digits hx.1
      have h2 := fromDigits_ge y.digits hye hy.2.1
      have h3 : (10 : ℕ) ^ x.digits.length ≤ 10 ^ (y.digits.length - 1) :=
        Nat.pow_le_pow_right (by norm_num) (by omega)
      push_cast
      omega
    have hde : divCore x y = ⟨[], 0⟩ := by rw [divCore, if_pos hlen]
    have hme : modCore x y = x := by rw [modCore, if_pos hlen]
    rw [hde, hme]
    have hz : toZ ⟨[], 0⟩ = 0 := by simp [toZ]
    refine ⟨by decide, hx, by rw [hz]; ring, hxlt, Or.inr rfl, ?_, ?_⟩
    · by_cases hx0 : toZ x = 0
      · left
        rw [hx0]
        rfl
      · right
        rfl
    · intro hdvd
      by_contra hxne
      rcases hdvd with ⟨c, hc⟩
      have hcne : c ≠ 0 := by
        intro h0
        rw [h0, mul_zero] at hc
        exact hxne hc
      have : |toZ y| ≤ |toZ x| := by
        rw [hc, abs_mul]
        have h1c : 1 ≤ |c| := by
          rcases lt_trichotomy c 0 with h | h | h
          · rw [abs_of_neg h]
            omega
          · exact absurd h hcne
          · rw [abs_of_pos h]
            omega
        nlinarith [abs_nonneg (toZ y), abs_nonneg c]
      omega
  · -- run the division loop
    have hx1 : y.digits.length ≤ x.digits.length := by omega
    have hxe : x.digits ≠ [] := by
      intro hc
      have h0 : x.digits.length = 0 := by rw [hc]; rfl
      omega
    have hxsne : x.sign ≠ 0 := fun hc => hxe (hx.2.2.1.mp hc)
    have habsv : Valid (absI x) := absI_valid x hx
    have habsz : toZ (absI x) = |toZ x| := toZ_absI x hx
    have habsn : 0 ≤ toZ (absI x) := by rw [habsz]; positivity
    have hub : toZ (absI x) < (fromDigits y.digits : ℤ) *
        10 ^ (x.digits.length - y.digits.length + 1) := by
      rw [habsz, abs_toZ x hx]
      have h1 := fromDigits_lt x.digits hx.1
      have h2 := fromDigits_ge y.digits hye hy.2.1
      have h3 : (10 : ℕ) ^ x.digits.length ≤
          fromDigits y.digits * 10 ^ (x.digits.length - y.digits.length + 1) := by
        calc (10 : ℕ) ^ x.digits.length ≤
            10 ^ (y.digits.length - 1 + (x.digits.length - y.digits.length + 1)) :=
              Nat.pow_le_pow_right (by norm_num) (by omega)
          _ = 10 ^ (y.digits.length - 1) *
              10 ^ (x.digits.length - y.digits.length + 1) := pow_add 10 _ _
          _ ≤ fromDigits y.digits * 10 ^ (x.digits.length - y.digits.length + 1) :=
              Nat.mul_le_mul_right _ h2
      calc (fromDigits x.digits : ℤ) < ((10 : ℕ) ^ x.digits.length : ℤ) := by
            exact_mod_cast h1
        _ ≤ ((fromDigits y.digits * 10 ^ (x.digits.length - y.digits.length + 1) : ℕ) :
              ℤ) := by exact_mod_cast h3
        _ = (fromDigits y.digits : ℤ) * 10 ^ (x.digits.length - y.digits.length + 1) := by
            push_cast
            ring
    obtain ⟨f1, f2, f3, f4, f5, f6, f7⟩ := divLoop_spec
      (x.digits.length - y.digits.length + 1) (absI x) y.digits
      (List.replicate (x.digits.length - y.digits.length + 1) 0)
      hy.1 hy.2.1 hye habsv habsn hub (by simp)
    have g1 : Valid (divRem x y) := f1
    have g2 : 0 ≤ toZ (divRem x y) := f2
    have g3 : toZ (divRem x y) < (fromDigits y.digits : ℤ) := f3
    have g4 : (divQuotientDigits x y).length =
        x.digits.length - y.digits.length + 1 := by
      have : (divQuotientDigits x y).length =
          (List.replicate (x.digits.length - y.digits.length + 1) (0 : ℕ)).length := f4
      simpa using this
    have g5 : ∀ j, j < x.digits.length - y.digits.length + 1 →
        (divQuotientDigits x y).getD j 0 ≤ 9 := f5
    have hQtake : (divQuotientDigits x y).take
        (x.digits.length - y.digits.length + 1) = divQuotientDigits x y := by
      rw [← g4]
      exact List.take_length _
    have key : (fromDigits (divQuotientDigits x y) : ℤ) * fromDigits y.digits +
        toZ (divRem x y) = |toZ x| := by
      have g7 : toZ (absI x) =
          (fromDigits ((divQuotientDigits x y).take
            (x.digits.length - y.digits.length + 1)) : ℤ) * fromDigits y.digits +
          toZ (divRem x y) := f7
      rw [hQtake] at g7
      rw [← habsz, g7]
    have hQ9 : ∀ d ∈ divQuotientDigits x y, d ≤ 9 := by
      refine mem_le_of_getD _ ?_
      intro j hj
      rw [g4] at hj
      exact g5 j hj
    have hremval : toZ (divRem x y) = fromDigits (divRem x y).digits :=
      toZ_nonneg_eq _ g1 g2
    have hremnorm : removeLZ (divRem x y).digits = (divRem x y).digits :=
      removeLZ_of_normalized _ g1.2.1
    -- value of the quotient
    have htoZdiv : toZ (divCore x y) =
        (if x.sign = y.sign then (1 : ℤ) else -1) * fromDigits (divQuotientDigits x y) := by
      rw [divCore_eq x y hlen]
      by_cases hq0 : removeLZ (divQuotientDigits x y) = []
      · rw [toZ]
        simp only [hq0, if_pos]
        have h0 : fromDigits (divQuotientDigits x y) = 0 :=
          (removeLZ_eq_nil_iff _).mp hq0
        rw [h0]
        simp [fromDigits]
      · rw [toZ]
        simp only [hq0, if_neg, if_false]
        rw [fromDigits_removeLZ]
    -- value of the remainder result
    have htoZmod : toZ (modCore x y) = x.sign * toZ (divRem x y) := by
      rw [modCore_eq x y hlen, hremnorm]
      by_cases h0 : (divRem x y).digits = []
      · rw [toZ]
        simp only [h0, if_pos]
        rw [hremval, h0]
        simp [fromDigits]
      · rw [toZ]
        simp only [h0, if_neg, if_false]
        rw [hremval]
    have hxsopt : x.sign = 1 ∨ x.sign = -1 := by
      rcases hx.2.2.2 with h | h | h
      · exact Or.inl h
      · exact absurd h hxsne
      · exact Or.inr h
    have hysopt : y.sign = 1 ∨ y.sign = -1 := by
      rcases hy.2.2.2 with h | h | h
      · exact Or.inl h
      · exact absurd h hysne
      · exact Or.inr h
    refine ⟨?_, ?_, ?_, ?_, ?_, ?_, ?_⟩
    · -- Valid (divCore x y)
      rw [divCore_eq x y hlen]
      by_cases hq0 : removeLZ (divQuotientDigits x y) = []
      · rw [hq0]
        simp only [if_pos]
        decide
      · simp only [hq0, if_neg, if_false]
        refine ⟨fun d hd => hQ9 d (removeLZ_mem hd), removeLZ_getLast? _,
          ⟨fun hc => ?_, fun hc => absurd hc hq0⟩, ?_⟩
        · by_cases hss : x.sign = y.sign
          · rw [if_pos hss] at hc
            norm_num at hc
          · rw [if_neg hss] at hc
            norm_num at hc
        · by_cases hss : x.sign = y.sign
          · rw [if_pos hss]
            exact Or.inl rfl
          · rw [if_neg hss]
            exact Or.inr (Or.inr rfl)
    · -- Valid (modCore x y)
      rw [modCore_eq x y hlen, hremnorm]
      by_cases h0 : (divRem x y).digits = []
      · rw [h0]
        simp only [if_pos]
        decide
      · simp only [h0, if_neg, if_false]
        refine ⟨g1.1, g1.2.1, ⟨fun hc => absurd hc hxsne, fun hc => absurd hc h0⟩, ?_⟩
        rcases hxsopt with h | h
        · exact Or.inl h
        · exact Or.inr (Or.inr h)
    · -- the Euclidean identity
      rw [htoZdiv, htoZmod]
      have hyval : toZ y = y.sign * (fromDigits y.digits : ℤ) := rfl
      have hxabs : toZ x = x.sign * |toZ x| := sign_mul_abs x hx
      rw [hyval, hxabs]
      rcases hxsopt with h1 | h1 <;> rcases hysopt with h2 | h2 <;> rw [h1, h2]
      · rw [if_pos rfl]
        linear_combination (-1 : ℤ) * key
      · rw [if_neg (by norm_num)]
        linear_combination (-1 : ℤ) * key
      · rw [if_neg (by norm_num)]
        linear_combination key
      · rw [if_pos rfl]
        linear_combination key
    · -- remainder magnitude bound
      have habs1 : |x.sign| = 1 := by
        rcases hxsopt with h | h <;> rw [h] <;> norm_num
      rw [htoZmod, abs_mul, habs1, one_mul, abs_of_nonneg g2, hyabs]
      exact g3
    · -- remainder sign field
      rw [modCore_eq x y hlen, hremnorm]
      by_cases h0 : (divRem x y).digits = []
      · simp [h0]
      · simp [h0]
    · -- remainder sign matches the dividend or is zero
      by_cases hm0 : toZ (modCore x y) = 0
      · left
        rw [hm0]
        rfl
      · right
        have hrne : toZ (divRem x y) ≠ 0 := by
          intro hc
          rw [htoZmod, hc, mul_zero] at hm0
          exact hm0 rfl
        have hrpos : 0 < toZ (divRem x y) := by omega
        rw [htoZmod, sign_toZ x hx]
        rcases hxsopt with h1 | h1 <;> rw [h1]
        · rw [one_mul, Int.sign_eq_one_of_pos hrpos]
        · rw [show (-1 : ℤ) * toZ (divRem x y) = -toZ (divRem x y) from by ring,
            Int.sign_neg, Int.sign_eq_one_of_pos hrpos]
    · -- divisibility forces a zero remainder
      intro hdvd
      have hdvd2 : (fromDigits y.digits : ℤ) ∣ toZ x := by
        rw [← hyabs]
        exact (abs_dvd _ _).mpr hdvd
      have hdr : (fromDigits y.digits : ℤ) ∣ toZ (divRem x y) := by
        have h1 : toZ (divRem x y) =
            |toZ x| - (fromDigits (divQuotientDigits x y) : ℤ) * fromDigits y.digits := by
          linarith [key]
        rw [h1]
        exact dvd_sub ((dvd_abs _ _).mpr hdvd2) (dvd_mul_left _ _)
      rcases hdr with ⟨c, hc⟩
      have hrem0 : toZ (divRem x y) = 0 := by
        rcases lt_trichotomy c 0 with h | h | h
        · exfalso
          have : toZ (divRem x y) < 0 := by
            rw [hc]
            have : (fromDigits y.digits : ℤ) * c ≤ (fromDigits y.digits : ℤ) * (-1) := by
              apply mul_le_mul_of_nonneg_left (by omega) (by positivity)
            omega
          omega
        · rw [hc, h, mul_zero]
        · exfalso
          have : (fromDigits y.digits : ℤ) ≤ toZ (divRem x y) := by
            rw [hc]
            have : (fromDigits y.digits : ℤ) * 1 ≤ (fromDigits y.digits : ℤ) * c := by
              apply mul_le_mul_of_nonneg_left (by omega) (by positivity)
            omega
          omega
      rw [htoZmod, hrem0, mul_zero]

/-! ### Increment and decrement (`Int::operator++`, `Int::operator--`) -/

/-- The digit-level scan of `Int::abs_inc` after the `push_back(0)`: walk past
the least-significant run of 9s (zeroing them), then add 1 to the first non-9
digit. The C++ scan always stops inside the vector because a trailing 0 was
appended first. -/
def incCore : List ℕ → List ℕ
  | [] => []
  | d :: ds => if d = 9 then 0 :: incCore ds else (d + 1) :: ds

/-- The digit-level scan of `Int::abs_dec`: walk past the least-significant run
of 0s (turning them into 9s), then subtract 1 from the first nonzero digit.
The C++ scan stays inside the vector because the precondition `*this != 0`
guarantees a nonzero digit exists. -/
def decCore : List ℕ → List ℕ
  | [] => []
  | d :: ds => if d = 0 then 9 :: decCore ds else (d - 1) :: ds

/-- Embeds `Int::abs_inc`: append a carry slot, run the scan, strip leading
zeros; the sign is unchanged. -/
def absInc (x : PInt) : PInt := ⟨removeLZ (incCore (x.digits ++ [0])), x.sign⟩

/-- Embeds `Int::abs_dec`: run the scan, strip leading zeros, and reset the
sign to 0 if the digits became empty. -/
def absDec (x : PInt) : PInt :=
  ⟨removeLZ (decCore x.digits),
    if removeLZ (decCore x.digits) = [] then 0 else x.sign⟩

/-- Embeds `Int::operator++`: zero becomes 1 directly, otherwise the magnitude
is bumped in the direction given by the sign. -/
def incI (x : PInt) : PInt :=
  if x.sign = 0 then ⟨x.digits ++ [1], 1⟩
  else if x.sign = 1 then absInc x else absDec x

/-- Embeds `Int::operator--`: zero becomes -1 directly, otherwise the magnitude
is bumped in the direction given by the sign. -/
def decI (x : PInt) : PInt :=
  if x.sign = 0 then ⟨x.digits ++ [1], -1⟩
  else if x.sign = 1 then absDec x else absInc x

/-- The integer one, `Int(1)`. -/
def oneI : PInt := ⟨[1], 1⟩

theorem incCore_value (l : List ℕ) :
    fromDigits (incCore (l ++ [0])) = fromDigits l + 1 := by
  induction l with
  | nil => simp [incCore, fromDigits]
  | cons d ds ih =>
    by_cases hd : d = 9
    · have h1 : incCore ((d :: ds) ++ [0]) = 0 :: incCore (ds ++ [0]) := by
        simp [incCore, hd]
      rw [h1]
      simp only [fromDigits, ih]
      omega
    · have h1 : incCore ((d :: ds) ++ [0]) = (d + 1) :: (ds ++ [0]) := by
        simp [incCore, hd]
      have h2 : fromDigits (ds ++ [0]) = fromDigits ds := by
        rw [fromDigits_append]
        simp [fromDigits]
      rw [h1]
      simp only [fromDigits, h2]
      omega

theorem incCore_digits (l : List ℕ) (h : ∀ d ∈ l, d ≤ 9) :
    ∀ e ∈ incCore (l ++ [0]), e ≤ 9 := by
  induction l with
  | nil =>
    intro e he
    simp [incCore] at he
    omega
  | cons d ds ih =>
    intro e he
    have hd : d ≤ 9 := h d (by simp)
    by_cases h9 : d = 9
    · simp only [List.cons_append, incCore, if_pos h9, List.mem_cons] at he
      rcases he with he | he
      · omega
      · exact ih (fun x hx => h x (by simp [hx])) e he
    · simp only [List.cons_append, incCore, if_neg h9, List.mem_cons] at he
      rcases he with he | he
      · omega
      · rcases List.mem_append.mp he with h1 | h1
        · exact h e (by simp [h1])
        · simp at h1
          omega

theorem decCore_value (l : List ℕ) (h0 : 0 < fromDigits l) :
    fromDigits (decCore l) + 1 = fromDigits l := by
  induction l with
  | nil => simp [fromDigits] at h0
  | cons d ds ih =>
    by_cases hd : d = 0
    · subst hd
      have hds : 0 < fromDigits ds := by
        simp only [fromDigits] at h0
        omega
      have := ih hds
      simp only [decCore, if_pos rfl, fromDigits]
      omega
    · simp only [decCore, if_neg hd, fromDigits]
      omega

theorem decCore_digits (l : List ℕ) (h : ∀ d ∈ l, d ≤ 9) :
    ∀ e ∈ decCore l, e ≤ 9 := by
  induction l with
  | nil => simp [decCore]
  | cons d ds ih =>
    intro e he
    by_cases hd : d = 0
    · simp only [decCore, if_pos hd, List.mem_cons] at he
      rcases he with he | he
      · omega
      · exact ih (fun x hx => h x (by simp [hx])) e he
    · simp only [decCore, if_neg hd, List.mem_cons] at he
      rcases he with he | he
      · have := h d (by simp)
        omega
      · exact h e (by simp [he])

/-- `abs_inc` adds one to the magnitude and preserves validity. -/
theorem absInc_spec (x : PInt) (hx : Valid x) (hs : x.sign ≠ 0) :
    toZ (absInc x) = x.sign * ((fromDigits x.digits : ℤ) + 1) ∧
      Valid (absInc x) := by
  have hval : fromDigits (removeLZ (incCore (x.digits ++ [0])))
      = fromDigits x.digits + 1 := by
    rw [fromDigits_removeLZ, incCore_value]
  constructor
  · show (x.sign : ℤ) * (fromDigits (removeLZ (incCore (x.digits ++ [0]))) : ℤ) = _
    rw [hval]
    push_cast
    ring
  · refine ⟨fun d hd => incCore_digits x.digits hx.1 d (removeLZ_mem hd),
      removeLZ_getLast? _, ?_, hx.2.2.2⟩
    constructor
    · intro hc
      exact absurd hc hs
    · intro hc
      have hc' : removeLZ (incCore (x.digits ++ [0])) = [] := hc
      have h0 : fromDigits (removeLZ (incCore (x.digits ++ [0]))) = 0 := by
        rw [hc']; rfl
      omega

/-- `abs_dec` subtracts one from the magnitude, preserves validity, and resets
the sign to zero exactly when the result is zero. -/
theorem absDec_spec (x : PInt) (hx : Valid x) (hs : x.sign ≠ 0) :
    toZ (absDec x) = x.sign * ((fromDigits x.digits : ℤ) - 1) ∧
      Valid (absDec x) := by
  have hne : x.digits ≠ [] := fun hc => hs (hx.2.2.1.mpr hc)
  have hpos : 0 < fromDigits x.digits := fromDigits_pos _ hne hx.2.1
  have hval : fromDigits (removeLZ (decCore x.digits)) + 1
      = fromDigits x.digits := by
    rw [fromDigits_removeLZ, decCore_value _ hpos]
  constructor
  · show ((if removeLZ (decCore x.digits) = [] then 0 else x.sign : ℤ))
      * (fromDigits (removeLZ (decCore x.digits)) : ℤ) = _
    by_cases he : removeLZ (decCore x.digits) = []
    · rw [if_pos he]
      have h0 : fromDigits (removeLZ (decCore x.digits)) = 0 := by rw [he]; rfl
      have h1 : fromDigits x.digits = 1 := by omega
      rw [h1]
      push_cast
      ring
    · rw [if_neg he]
      have : (fromDigits (removeLZ (decCore x.digits)) : ℤ)
          = (fromDigits x.digits : ℤ) - 1 := by
        have := hval
        push_cast
        omega
      rw [this]
  · refine ⟨fun d hd => decCore_digits x.digits hx.1 d (removeLZ_mem hd),
      removeLZ_getLast? _, ?_, ?_⟩
    · by_cases he : removeLZ (decCore x.digits) = []
      · simp [absDec, he]
      · simp [absDec, he, hs]
    · by_cases he : removeLZ (decCore x.digits) = []
      · simp [absDec, he]
      · simp only [absDec, if_neg he]
        exact hx.2.2.2

/-- `operator++` adds one. -/
theorem incI_spec (x : PInt) (hx : Valid x) :
    toZ (incI x) = toZ x + 1 ∧ Valid (incI x) := by
  by_cases h0 : x.sign = 0
  · have he : x.digits = [] := hx.2.2.1.mp h0
    rw [incI, if_pos h0, toZ_zero_of x hx h0, he]
    exact ⟨by simp [toZ, fromDigits], by decide⟩
  · by_cases h1 : x.sign = 1
    · rw [incI, if_neg h0, if_pos h1]
      obtain ⟨hv, hvd⟩ := absInc_spec x hx h0
      refine ⟨?_, hvd⟩
      rw [hv, h1]
      show _ = x.sign * (fromDigits x.digits : ℤ) + 1
      rw [h1]
      ring
    · have hm : x.sign = -1 := by
        rcases hx.2.2.2 with h | h | h
        · exact absurd h h1
        · exact absurd h h0
        · exact h
      rw [incI, if_neg h0, if_neg h1]
      obtain ⟨hv, hvd⟩ := absDec_spec x hx h0
      refine ⟨?_, hvd⟩
      rw [hv, hm]
      show _ = x.sign * (fromDigits x.digits : ℤ) + 1
      rw [hm]
      ring

/-- `operator--` subtracts one. -/
theorem decI_spec (x : PInt) (hx : Valid x) :
    toZ (decI x) = toZ x - 1 ∧ Valid (decI x) := by
  by_cases h0 : x.sign = 0
  · have he : x.digits = [] := hx.2.2.1.mp h0
    rw [decI, if_pos h0, toZ_zero_of x hx h0, he]
    exact ⟨by simp [toZ, fromDigits], by decide⟩
  · by_cases h1 : x.sign = 1
    · rw [decI, if_neg h0, if_pos h1]
      obtain ⟨hv, hvd⟩ := absDec_spec x hx h0
      refine ⟨?_, hvd⟩
      rw [hv, h1]
      show _ = x.sign * (fromDigits x.digits : ℤ) - 1
      rw [h1]
      ring
    · have hm : x.sign = -1 := by
        rcases hx.2.2.2 with h | h | h
        · exact absurd h h1
        · exact absurd h h0
        · exact h
      rw [decI, if_neg h0, if_neg h1]
      obtain ⟨hv, hvd⟩ := absInc_spec x hx h0
      refine ⟨?_, hvd⟩
      rw [hv, hm]
      show _ = x.sign * (fromDigits x.digits : ℤ) - 1
      rw [hm]
      ring

/-! ### Parsing (`Int(const char*)`) and rendering (`operator<<`) -/

/-- The digit test of `Int::is_integer` (the C++ comparison
`chars[i] < '0' || chars[i] > '9'` on character codes, negated). -/
def isDigitCh (c : Char) : Bool := 48 ≤ c.toNat && c.toNat ≤ 57

/-- Embeds `Int::is_integer`: nonempty, not a lone sign character, and every
character after an optional leading `+`/`-` is a decimal digit. -/
def isInteger (cs : List Char) : Bool :=
  match cs with
  | [] => false
  | c :: rest =>
    if c = '+' || c = '-' then !rest.isEmpty && rest.all isDigitCh
    else (c :: rest).all isDigitCh

/-- Digit character to digit value, `chars[len - 1 - i] - '0'`. -/
def chVal (c : Char) : ℕ := c.toNat - 48

/-- Digit value to character, `char(d + '0')`. -/
def chOf (d : ℕ) : Char := Char.ofNat (d + 48)

/-- The characters actually converted by `Int(const char*)`: everything after
the optional sign symbol (`const int s = (chars[0] == '-' || chars[0] == '+')`). -/
def parseBody (cs : List Char) : List Char :=
  if cs.headD ' ' = '-' || cs.headD ' ' = '+' then cs.tail else cs

/-- Embeds `Int(const char*)`: validate the literal, read the sign, convert the
digit characters least-significant first, strip leading zeros, and zero the
sign if the digit list came out empty. -/
def parse (cs : List Char) : Except String PInt :=
  if isInteger cs then
    let s : ℤ := if cs.headD ' ' = '-' then -1 else 1
    let ds := removeLZ ((parseBody cs).reverse.map chVal)
    .ok ⟨ds, if ds = [] then 0 else s⟩
  else .error "Error: Wrong integer literal."

/-- Embeds `operator<<` into a character list: `'0'` for zero, else an optional
minus sign followed by the digits most-significant first. -/
def render (x : PInt) : List Char :=
  if x.sign = 0 then ['0']
  else (if x.sign = -1 then ['-'] else []) ++ x.digits.reverse.map chOf

theorem chVal_chOf (d : ℕ) (h : d ≤ 9) : chVal (chOf d) = d := by
  interval_cases d <;> decide

theorem chOf_isDigit (d : ℕ) (h : d ≤ 9) : isDigitCh (chOf d) = true := by
  interval_cases d <;> decide

theorem chOf_ne_plus (d : ℕ) (h : d ≤ 9) : chOf d ≠ '+' := by
  interval_cases d <;> decide

theorem chOf_ne_minus (d : ℕ) (h : d ≤ 9) : chOf d ≠ '-' := by
  interval_cases d <;> decide

theorem map_chVal_chOf (l : List ℕ) (h : ∀ d ∈ l, d ≤ 9) :
    (l.map chOf).map chVal = l := by
  induction l with
  | nil => rfl
  | cons d ds ih =>
    simp only [List.map_cons, chVal_chOf d (h d (by simp)),
      ih (fun e he => h e (by simp [he]))]

theorem parseBody_cons_pos (c : Char) (cs : List Char) (hplus : c ≠ '+')
    (hminus : c ≠ '-') : parseBody (c :: cs) = c :: cs := by
  have hh : (c :: cs).headD ' ' = c := rfl
  rw [parseBody, hh]
  simp [hplus, hminus]

theorem parseBody_cons_minus (cs : List Char) : parseBody ('-' :: cs) = cs := by
  rw [parseBody]
  simp

/-- Every character converted by the parse loop is a decimal digit. -/
theorem parseBody_digits (cs : List Char) (hint : isInteger cs = true) :
    ∀ e ∈ parseBody cs, isDigitCh e = true := by
  match cs with
  | [] => exact absurd hint (by decide)
  | c :: rest =>
    intro e he
    rw [isInteger] at hint
    split at hint
    · next hc =>
      simp only [Bool.and_eq_true] at hint
      obtain ⟨-, hall⟩ := hint
      have hbody : parseBody (c :: rest) = rest := by
        simp only [Bool.or_eq_true] at hc
        rcases hc with h | h
        · have hcp : c = '+' := of_decide_eq_true h
          subst hcp
          rw [parseBody]
          simp
        · have hcm : c = '-' := of_decide_eq_true h
          subst hcm
          exact parseBody_cons_minus rest
      rw [hbody] at he
      exact List.all_eq_true.mp hall e he
    · next hc =>
      have hcp : c ≠ '+' := fun h => hc (by simp [h])
      have hcm : c ≠ '-' := fun h => hc (by simp [h])
      rw [parseBody_cons_pos c rest hcp hcm] at he
      exact List.all_eq_true.mp hint e he

theorem parse_cons_pos (c : Char) (cs : List Char) (hplus : c ≠ '+')
    (hminus : c ≠ '-') (hint : isInteger (c :: cs) = true) :
    parse (c :: cs) = .ok ⟨removeLZ ((c :: cs).reverse.map chVal),
      if removeLZ ((c :: cs).reverse.map chVal) = [] then 0 else 1⟩ := by
  have hh : (c :: cs).headD ' ' = c := rfl
  simp only [parse, hint, if_true, parseBody_cons_pos c cs hplus hminus, hh,
    if_neg hminus]

theorem parse_cons_neg (cs : List Char) (hint : isInteger ('-' :: cs) = true) :
    parse ('-' :: cs) = .ok ⟨removeLZ (cs.reverse.map chVal),
      if removeLZ (cs.reverse.map chVal) = [] then 0 else -1⟩ := by
  have hh : ('-' :: cs).headD ' ' = '-' := rfl
  simp only [parse, hint, if_true, parseBody_cons_minus cs, hh, if_pos rfl]

/-- Parsing the rendering of a valid value gives the value back. -/
theorem parse_render (x : PInt) (hx : Valid x) : parse (render x) = .ok x := by
  obtain ⟨h9, hn, h0, hsv⟩ := hx
  by_cases hs0 : x.sign = 0
  · have he : x.digits = [] := h0.mp hs0
    rcases x with ⟨dx, sx⟩
    simp only at he hs0
    subst he hs0
    have h1 : render ⟨[], 0⟩ = ['0'] := rfl
    rw [h1]
    have hint : isInteger ['0'] = true := by decide
    rw [parse_cons_pos '0' [] (by decide) (by decide) hint]
    rfl
  · have hne : x.digits ≠ [] := fun hc => hs0 (h0.mpr hc)
    have hmap : x.digits.reverse.map chOf = (x.digits.map chOf).reverse := by
      rw [List.map_reverse]
    have hrevne : (x.digits.map chOf).reverse ≠ [] := by
      simp [hne]
    obtain ⟨c, cs, hcons⟩ := List.exists_cons_of_ne_nil hrevne
    have hcmem : c ∈ x.digits.map chOf := by
      have : c ∈ (x.digits.map chOf).reverse := by rw [hcons]; simp
      simpa using this
    obtain ⟨d0, hd0mem, hd0⟩ := List.mem_map.mp hcmem
    have hd0le : d0 ≤ 9 := h9 d0 hd0mem
    have hcplus : c ≠ '+' := hd0 ▸ chOf_ne_plus d0 hd0le
    have hcminus : c ≠ '-' := hd0 ▸ chOf_ne_minus d0 hd0le
    have halldig : ∀ e ∈ (x.digits.map chOf).reverse, isDigitCh e = true := by
      intro e he
      obtain ⟨d, hdm, hd⟩ := List.mem_map.mp (by simpa using he)
      exact hd ▸ chOf_isDigit d (h9 d hdm)
    have hbodyval : ∀ body : List Char, body = (x.digits.map chOf).reverse →
        removeLZ (body.reverse.map chVal) = x.digits := by
      intro body hb
      rw [hb, List.reverse_reverse, map_chVal_chOf x.digits h9,
        removeLZ_of_normalized x.digits hn]
    rcases hsv with hs1 | hs1 | hs1
    · -- positive: the rendering is just the digit characters
      have hrend : render x = c :: cs := by
        rw [render, if_neg hs0, hs1]
        simp only [hmap, hcons]
        rfl
      rw [hrend]
      have hint : isInteger (c :: cs) = true := by
        rw [isInteger]
        have hcc : (c = '+' || c = '-') = false := by
          simp [hcplus, hcminus]
        rw [hcc]
        simp only [Bool.false_eq_true, if_false, List.all_eq_true]
        intro e he
        exact halldig e (hcons ▸ he)
      rw [parse_cons_pos c cs hcplus hcminus hint]
      rw [hbodyval (c :: cs) hcons.symm]
      simp only [if_neg hne]
      rw [← hs1]
    · exact absurd hs1 hs0
    · -- negative: the rendering is a minus sign then the digit characters
      have hrend : render x = '-' :: (c :: cs) := by
        rw [render, if_neg hs0, hs1]
        simp only [hmap, hcons]
        rfl
      rw [hrend]
      have hint : isInteger ('-' :: (c :: cs)) = true := by
        rw [isInteger]
        rw [if_pos (by decide)]
        simp only [List.isEmpty_cons, Bool.not_false, Bool.true_and,
          List.all_eq_true]
        intro e he
        exact halldig e (hcons ▸ he)
      rw [parse_cons_neg (c :: cs) hint]
      rw [hbodyval (c :: cs) hcons.symm]
      simp only [if_neg hne]
      rw [← hs1]

/-- Every successful parse yields a valid representation. -/
theorem parse_valid (cs : List Char) (v : PInt) (h : parse cs = .ok v) :
    Valid v := by
  by_cases hint : isInteger cs = true
  · simp only [parse, hint, if_true, Except.ok.injEq] at h
    subst h
    refine ⟨?_, removeLZ_getLast? _, ?_, ?_⟩
    · intro d hd
      obtain ⟨e, hem, he⟩ := List.mem_map.mp (removeLZ_mem hd)
      have hdig := parseBody_digits cs hint e (by simpa using hem)
      rw [← he]
      unfold isDigitCh at hdig
      simp only [Bool.and_eq_true] at hdig
      obtain ⟨-, h2⟩ := hdig
      have := of_decide_eq_true h2
      unfold chVal
      omega
    · constructor
      · intro hz
        by_contra hc
        rw [if_neg hc] at hz
        by_cases hm : cs.headD ' ' = '-'
        · rw [if_pos hm] at hz
          exact absurd hz (by norm_num)
        · rw [if_neg hm] at hz
          exact absurd hz (by norm_num)
      · intro hc
        rw [if_pos hc]
    · split
      · right; left; rfl
      · split
        · right; right; rfl
        · left; rfl
  · simp only [parse, hint] at h
    exact absurd h (by simp)

/-! ### Power (`Int::pow`) -/

/-- Embeds `Int::is_odd`: zero is not odd, otherwise test the lowest digit. -/
def isOdd (x : PInt) : Bool :=
  if x.sign = 0 then false else x.digits.headD 0 % 2 = 1

/-- The integer two, `Int(2)`. -/
def twoI : PInt := ⟨[2], 1⟩

/-- The integer minus one, `Int(-1)`. -/
def negOneI : PInt := ⟨[1], -1⟩

/-- The fast-power loop of `Int::pow`, with explicit fuel standing for the
loop's (finite) trip count: squares `num`, halves `n`, multiplies the odd bits
into `result`, reducing by `m` when a nonzero modulus was given. -/
def powLoop : ℕ → PInt → PInt → PInt → PInt → PInt
  | 0, _, _, result, _ => result
  | f + 1, num, n, result, m =>
    if n.sign = 0 then result
    else
      powLoop f (if m.sign = 0 then mulI num num else modCore (mulI num num) m)
        (divCore n twoI)
        (if isOdd n then
          (if m.sign = 0 then mulI result num else modCore (mulI result num) m)
          else result)
        m

/-- Embeds `Int::pow(base, exp, mod)`: the `|base| == 1` fast path comes first,
then the negative-exponent check, then the fast-power loop. The fuel
`4 * exp.digits.length + 4` dominates the loop's trip count, which is at most
`log2` of the exponent. -/
def powI (base exp m : PInt) : Except String PInt :=
  if base.digits.length = 1 ∧ base.digits.headD 0 = 1 then
    .ok (if base.sign = -1 ∧ isOdd exp then negOneI else oneI)
  else if exp.sign = -1 then
    if base.sign = 0 then .error "Error: Math domain error."
    else .ok zeroI
  else .ok (powLoop (4 * exp.digits.length + 4) base exp oneI m)

/-! ### Greatest common divisor (`Int::gcd`) and least common multiple
(`Int::lcm`) -/

/-- The Euclidean loop of `Int::gcd` (`a, b = b, a % b until b == 0`), with
fuel standing for the loop's finite trip count. -/
def gcdLoop : ℕ → PInt → PInt → PInt
  | 0, a, _ => a
  | f + 1, a, b => if b.sign = 0 then a else gcdLoop f b (modCore a b)

/-- Embeds `Int::gcd`. The fuel `(toZ b).natAbs + 1` dominates the trip count
because the remainder's magnitude strictly shrinks each step. -/
def gcdI (a b : PInt) : PInt := gcdLoop ((toZ b).natAbs + 1) a b

/-- Embeds `Int::lcm`: zero if either operand is zero, else
`(int1 * int2) / gcd(int1, int2)`. -/
def lcmI (a b : PInt) : Except String PInt :=
  if a.sign = 0 ∨ b.sign = 0 then .ok zeroI
  else divI (mulI a b) (gcdI a b)

/-- For valid nonzero values, `toZ` is nonzero. -/
theorem toZ_ne_zero (x : PInt) (hx : Valid x) (h : x.sign ≠ 0) : toZ x ≠ 0 := by
  rcases hx.2.2.2 with h1 | h1 | h1
  · exact ne_of_gt (toZ_pos_of x hx h1)
  · exact absurd h1 h
  · exact ne_of_lt (toZ_neg_of x hx h1)

/-- The Euclidean loop returns a valid common divisor of its arguments, which
is zero only if both arguments are zero. -/
theorem gcdLoop_spec (f : ℕ) : ∀ a b : PInt, Valid a → Valid b →
    (toZ b).natAbs < f →
    Valid (gcdLoop f a b) ∧ toZ (gcdLoop f a b) ∣ toZ a ∧
      toZ (gcdLoop f a b) ∣ toZ b ∧
      (toZ (gcdLoop f a b) = 0 → toZ a = 0 ∧ toZ b = 0) := by
  induction f with
  | zero =>
    intro a b ha hb hf
    exact absurd hf (Nat.not_lt_zero _)
  | succ f ih =>
    intro a b ha hb hf
    by_cases hb0 : b.sign = 0
    · rw [gcdLoop, if_pos hb0]
      have hbz : toZ b = 0 := toZ_zero_of b hb hb0
      exact ⟨ha, dvd_refl _, hbz ▸ dvd_zero _, fun h => ⟨h, hbz⟩⟩
    · rw [gcdLoop, if_neg hb0]
      have hbz : toZ b ≠ 0 := toZ_ne_zero b hb hb0
      obtain ⟨-, hmv, hid, hlt, -, -, -⟩ := divModCore_spec a b ha hb hbz
      have habs : (toZ (modCore a b)).natAbs < f := by
        rw [Int.abs_eq_natAbs, Int.abs_eq_natAbs] at hlt
        have h2 : (toZ (modCore a b)).natAbs < (toZ b).natAbs := by
          exact_mod_cast hlt
        omega
      obtain ⟨hv, hdb, hdr, hzero⟩ := ih b (modCore a b) hb hmv habs
      refine ⟨hv, ?_, hdb, ?_⟩
      · rw [hid]
        exact dvd_add (hdb.mul_left _) hdr
      · intro h
        obtain ⟨hb0', -⟩ := hzero h
        exact absurd hb0' hbz

/-- `Int::gcd` returns a valid common divisor, zero only when both arguments
are zero. -/
theorem gcdI_spec (a b : PInt) (ha : Valid a) (hb : Valid b) :
    Valid (gcdI a b) ∧ toZ (gcdI a b) ∣ toZ a ∧ toZ (gcdI a b) ∣ toZ b ∧
      (toZ (gcdI a b) = 0 → toZ a = 0 ∧ toZ b = 0) :=
  gcdLoop_spec _ a b ha hb (Nat.lt_succ_self _)

/-- `Int::lcm` on nonzero operands succeeds and satisfies
`lcm(a,b) * gcd(a,b) = a * b` exactly (no absolute value). -/
theorem lcmI_spec (a b : PInt) (ha : Valid a) (hb : Valid b)
    (ha0 : a.sign ≠ 0) (hb0 : b.sign ≠ 0) :
    lcmI a b = .ok (divCore (mulI a b) (gcdI a b)) ∧
      Valid (divCore (mulI a b) (gcdI a b)) ∧
      toZ (divCore (mulI a b) (gcdI a b)) * toZ (gcdI a b) = toZ a * toZ b := by
  obtain ⟨hgv, hga, hgb, hgz⟩ := gcdI_spec a b ha hb
  have hgne : toZ (gcdI a b) ≠ 0 := fun h => ha0 (by
    have := (hgz h).1
    rcases ha.2.2.2 with h1 | h1 | h1
    · exact absurd this (ne_of_gt (toZ_pos_of a ha h1))
    · exact h1
    · exact absurd this (ne_of_lt (toZ_neg_of a ha h1)))
  obtain ⟨hmval, hmv⟩ := mulI_spec a b ha hb
  obtain ⟨hqv, -, hid, -, -, -, hdvd⟩ :=
    divModCore_spec (mulI a b) (gcdI a b) hmv hgv hgne
  have hgab : toZ (gcdI a b) ∣ toZ (mulI a b) := by
    rw [hmval]
    exact hga.mul_right _
  have hmod0 : toZ (modCore (mulI a b) (gcdI a b)) = 0 := hdvd hgab
  have hgs : (gcdI a b).sign ≠ 0 := fun h => hgne (toZ_zero_of _ hgv h)
  refine ⟨?_, hqv, ?_⟩
  · rw [lcmI, if_neg (by push_neg; exact ⟨ha0, hb0⟩), divI, if_neg hgs]
  · rw [hid, hmod0] at hmval
    linarith [hmval]

/-! ### Square root (`Int::sqrt`) -/

/-- One Newton step of `Int::sqrt`: `(cur_sqrt + integer / cur_sqrt) / 2`. -/
def sqrtStep (integer cur : PInt) : PInt :=
  divCore (add cur (divCore integer cur)) twoI

/-- The Newton loop of `Int::sqrt` (`while (cur_sqrt != pre_sqrt)`), with fuel
bounding how many iterations we run: `some` is the loop's return value, `none`
means the loop was still running after `fuel` iterations. -/
def sqrtLoop : ℕ → PInt → PInt → PInt → Option PInt
  | 0, _, _, _ => none
  | f + 1, integer, cur, pre =>
    if cur = pre then some cur
    else sqrtLoop f integer (sqrtStep integer cur) cur

/-- Embeds `Int::sqrt`: error on negatives, hard-coded answers below 16, then
Newton iteration seeded with `10^(digit_count/2 - 1)` against `pre_sqrt = -1`. -/
def sqrtI (fuel : ℕ) (integer : PInt) : Except String (Option PInt) :=
  if integer.sign = -1 then
    .error "Error: Cannot compute square root of a negative integer."
  else if integer.sign = 0 then .ok (some zeroI)
  else if cmp integer ⟨[4], 1⟩ < 0 then .ok (some oneI)
  else if cmp integer ⟨[9], 1⟩ < 0 then .ok (some twoI)
  else if cmp integer ⟨[6, 1], 1⟩ < 0 then .ok (some ⟨[3], 1⟩)
  else .ok (sqrtLoop fuel integer
    ⟨List.replicate (integer.digits.length / 2 - 1) 0 ++ [1], 1⟩ negOneI)

/-- The `(cur_sqrt, pre_sqrt)` states the Newton loop visits on input 24:
`1, 12, 7, 5, 4, 5, 4, ...` — the last two alternate forever. -/
def sqrtBad24 : List (PInt × PInt) :=
  [(⟨[1], 1⟩, negOneI), (⟨[2, 1], 1⟩, ⟨[1], 1⟩), (⟨[7], 1⟩, ⟨[2, 1], 1⟩),
    (⟨[5], 1⟩, ⟨[7], 1⟩), (⟨[4], 1⟩, ⟨[5], 1⟩), (⟨[5], 1⟩, ⟨[4], 1⟩)]

/-- On input 24, from any state of `sqrtBad24` the Newton loop never exits. -/
theorem sqrtLoop_24_none (f : ℕ) :
    ∀ cur pre : PInt, (cur, pre) ∈ sqrtBad24 →
      sqrtLoop f ⟨[4, 2], 1⟩ cur pre = none := by
  induction f with
  | zero =>
    intro cur pre _
    rfl
  | succ f ih =>
    intro cur pre hp
    fin_cases hp <;>
      (rw [sqrtLoop, if_neg (by decide)]; exact ih _ _ (by decide))

/-! ### Construction from machine integers (`Int(int)`) -/

/-- The digit-extraction loop of `Int(int)` (`digits_.push_back(integer % 10);
integer /= 10`), with fuel making the recursion structural; fuel at least the
value is always enough. -/
def natDigitsAux : ℕ → ℕ → List ℕ
  | _, 0 => []
  | 0, _ + 1 => []
  | f + 1, m + 1 => (m + 1) % 10 :: natDigitsAux f ((m + 1) / 10)

/-- Embeds `Int(int)` (generalized to any mathematical integer): zero maps to
the canonical zero, otherwise sign and base-10 digits of the absolute value. -/
def ofInt (n : ℤ) : PInt :=
  if n = 0 then ⟨[], 0⟩
  else ⟨natDigitsAux n.natAbs n.natAbs, if 0 < n then 1 else -1⟩

theorem natDigitsAux_spec (f : ℕ) : ∀ m : ℕ, 0 < m → m ≤ f →
    (∀ d ∈ natDigitsAux f m, d ≤ 9) ∧
      (natDigitsAux f m).getLast? ≠ some 0 ∧ natDigitsAux f m ≠ [] ∧
      fromDigits (natDigitsAux f m) = m := by
  induction f with
  | zero =>
    intro m hm hf
    omega
  | succ f ih =>
    intro m hm hf
    obtain ⟨k, rfl⟩ : ∃ k, m = k + 1 := ⟨m - 1, by omega⟩
    rw [natDigitsAux]
    by_cases hq : (k + 1) / 10 = 0
    · rw [hq]
      have h10 : k + 1 < 10 := by omega
      have hmod : (k + 1) % 10 = k + 1 := Nat.mod_eq_of_lt h10
      refine ⟨?_, ?_, by simp, ?_⟩
      · intro d hd
        simp only [natDigitsAux, List.mem_singleton] at hd
        omega
      · show ((k + 1) % 10 :: natDigitsAux f 0).getLast? ≠ some 0
        have : natDigitsAux f 0 = [] := by cases f <;> rfl
        rw [this]
        simp [hmod]
      · show fromDigits ((k + 1) % 10 :: natDigitsAux f 0) = k + 1
        have : natDigitsAux f 0 = [] := by cases f <;> rfl
        rw [this]
        simp [fromDigits, hmod]
    · have hqpos : 0 < (k + 1) / 10 := Nat.pos_of_ne_zero hq
      have hqle : (k + 1) / 10 ≤ f := by
        have : (k + 1) / 10 < k + 1 := Nat.div_lt_self (by omega) (by norm_num)
        omega
      obtain ⟨ih9, ihlast, ihne, ihval⟩ := ih ((k + 1) / 10) hqpos hqle
      refine ⟨?_, ?_, by simp, ?_⟩
      · intro d hd
        rcases List.mem_cons.mp hd with h | h
        · omega
        · exact ih9 d h
      · obtain ⟨a, l, hal⟩ := List.exists_cons_of_ne_nil ihne
        rw [hal, List.getLast?_cons_cons]
        rw [hal] at ihlast
        exact ihlast
      · simp only [fromDigits, ihval]
        omega

/-- Values built by `Int(int)` are valid. -/
theorem ofInt_valid (n : ℤ) : Valid (ofInt n) := by
  by_cases h0 : n = 0
  · rw [ofInt, if_pos h0]
    decide
  · rw [ofInt, if_neg h0]
    have hpos : 0 < n.natAbs := Int.natAbs_pos.mpr h0
    obtain ⟨h9, hlast, hne, -⟩ := natDigitsAux_spec n.natAbs n.natAbs hpos le_rfl
    refine ⟨h9, hlast, ?_, ?_⟩
    · constructor
      · intro hc
        by_cases hn : 0 < n
        · rw [if_pos hn] at hc
          exact absurd hc (by norm_num)
        · rw [if_neg hn] at hc
          exact absurd hc (by norm_num)
      · intro hc
        exact absurd hc hne
    · by_cases hn : 0 < n
      · rw [if_pos hn]
        left
        rfl
      · rw [if_neg hn]
        right
        right
        rfl

/-! ### Random generation (`Int::random`) -/

/-- Embeds one call of `Int::random` given the values the generator produced:
`ds` are the draws of `digit(gen)` filling the vector (each in `[0, 9]`), and
`top` is the draw of `most_digit(gen)` (in `[1, 9]`) that replaces a
most-significant zero. The sign is set from emptiness before the replacement. -/
def randomI (ds : List ℕ) (top : ℕ) : PInt :=
  ⟨if ds ≠ [] ∧ ds.getLast? = some 0 then ds.dropLast ++ [top] else ds,
    if ds.isEmpty then 0 else 1⟩

/-- `Int::random` returns a valid (non-negative) value whenever the generator
draws are in their distributions' ranges. -/
theorem randomI_valid (ds : List ℕ) (top : ℕ) (hds : ∀ d ∈ ds, d ≤ 9)
    (htop1 : 1 ≤ top) (htop9 : top ≤ 9) : Valid (randomI ds top) := by
  by_cases he : ds = []
  · subst he
    have h1 : randomI [] top = ⟨[], 0⟩ := by
      rw [randomI]
      simp
    rw [h1]
    decide
  · have hie : ds.isEmpty = false := by simp [he]
    by_cases hz : ds.getLast? = some 0
    · rw [randomI]
      rw [if_pos ⟨he, hz⟩]
      refine ⟨?_, ?_, ?_, ?_⟩
      · intro d hd
        rcases List.mem_append.mp hd with h | h
        · exact hds d (List.dropLast_subset _ h)
        · simp only [List.mem_singleton] at h
          omega
      · rw [List.getLast?_concat]
        intro hc
        simp only [Option.some.injEq] at hc
        omega
      · simp only [hie]
        constructor
        · intro hc
          exact absurd hc (by norm_num)
        · intro hc
          exact absurd hc (by simp)
      · simp [hie]
    · rw [randomI, if_neg (fun hc => hz hc.2)]
      refine ⟨hds, hz, ?_, ?_⟩
      · simp only [hie]
        constructor
        · intro hc
          exact absurd hc (by norm_num)
        · intro hc
          exact absurd hc he
      · simp [hie]

/-! ### Hashing (`std::hash<pyincpp::Int>`) -/

/-- Embeds `std::hash<pyincpp::Int>`, parameterized by the (implementation
defined) `std::hash<signed char>` function `h`: start from the sign's hash and
fold in each digit's hash shifted left by one, on 64-bit `size_t` values. -/
def hashInt (h : ℤ → ℕ) (x : PInt) : ℕ :=
  x.digits.foldl (fun v d => v ^^^ (h d % 2 ^ 64 * 2 % 2 ^ 64))
    (h x.sign % 2 ^ 64)

/-- Every quotient digit recorded by the division loop is at most 9: the inner
subtraction loop runs at most 9 times per position. -/
theorem divQuotientDigits_le (x y : PInt) (hx : Valid x) (hy : Valid y)
    (hy0 : toZ y ≠ 0) (hlen : ¬x.digits.length < y.digits.length) :
    ∀ d ∈ divQuotientDigits x y, d ≤ 9 := by
  have hysne : y.sign ≠ 0 := fun hc => hy0 (toZ_zero_of y hy hc)
  have hye : y.digits ≠ [] := fun hc => hysne (hy.2.2.1.mpr hc)
  have habsv : Valid (absI x) := absI_valid x hx
  have habsz : toZ (absI x) = |toZ x| := toZ_absI x hx
  have habsn : 0 ≤ toZ (absI x) := by rw [habsz]; positivity
  have hub : toZ (absI x) < (fromDigits y.digits : ℤ) *
      10 ^ (x.digits.length - y.digits.length + 1) := by
    rw [habsz, abs_toZ x hx]
    have h1 := fromDigits_lt x.digits hx.1
    have h2 := fromDigits_ge y.digits hye hy.2.1
    have h3 : (10 : ℕ) ^ x.digits.length ≤
        fromDigits y.digits * 10 ^ (x.digits.length - y.digits.length + 1) := by
      calc (10 : ℕ) ^ x.digits.length ≤
          10 ^ (y.digits.length - 1 + (x.digits.length - y.digits.length + 1)) :=
            Nat.pow_le_pow_right (by norm_num) (by omega)
        _ = 10 ^ (y.digits.length - 1) *
            10 ^ (x.digits.length - y.digits.length + 1) := pow_add 10 _ _
        _ ≤ fromDigits y.digits * 10 ^ (x.digits.length - y.digits.length + 1) :=
            Nat.mul_le_mul_right _ h2
    calc (fromDigits x.digits : ℤ) < ((10 : ℕ) ^ x.digits.length : ℤ) := by
          exact_mod_cast h1
      _ ≤ ((fromDigits y.digits * 10 ^ (x.digits.length - y.digits.length + 1) : ℕ) :
            ℤ) := by exact_mod_cast h3
      _ = (fromDigits y.digits : ℤ) * 10 ^ (x.digits.length - y.digits.length + 1) := by
          push_cast
          ring
  obtain ⟨-, -, -, f4, f5, -, -⟩ := divLoop_spec
    (x.digits.length - y.digits.length + 1) (absI x) y.digits
    (List.replicate (x.digits.length - y.digits.length + 1) 0)
    hy.1 hy.2.1 hye habsv habsn hub (by simp)
  have g4 : (divQuotientDigits x y).length =
      x.digits.length - y.digits.length + 1 := by
    have h : (divQuotientDigits x y).length =
        (List.replicate (x.digits.length - y.digits.length + 1) (0 : ℕ)).length := f4
    simpa using h
  exact mem_le_of_getD _ (fun j hj => f5 j (by omega))

/-! ## The claims -/

/-- C1: for all valid values `a, b` with `b != 0`, both operators succeed,
`a == (a / b) * b + a % b`, and the sign of `a % b` is zero or the sign of
`a` (truncating division). -/
theorem div_mod_euclidean_identity (a b : PInt) (ha : Valid a) (hb : Valid b)
    (hb0 : toZ b ≠ 0) :
    divI a b = .ok (divCore a b) ∧ modI a b = .ok (modCore a b) ∧
      toZ a = toZ (divCore a b) * toZ b + toZ (modCore a b) ∧
      ((modCore a b).sign = 0 ∨ (modCore a b).sign = a.sign) := by
  have hbs : b.sign ≠ 0 := fun h => hb0 (toZ_zero_of b hb h)
  obtain ⟨-, -, hid, -, hsign, -, -⟩ := divModCore_spec a b ha hb hb0
  exact ⟨by rw [divI, if_neg hbs], by rw [modI, if_neg hbs], hid, hsign⟩

theorem div_mod_euclidean_identity_witness :
    Valid (PInt.mk [7] (-1)) ∧ Valid (PInt.mk [3] 1) ∧
      toZ (PInt.mk [3] 1) ≠ 0 ∧
      (divI (PInt.mk [7] (-1)) (PInt.mk [3] 1) =
          .ok (divCore (PInt.mk [7] (-1)) (PInt.mk [3] 1)) ∧
        modI (PInt.mk [7] (-1)) (PInt.mk [3] 1) =
          .ok (modCore (PInt.mk [7] (-1)) (PInt.mk [3] 1)) ∧
        toZ (PInt.mk [7] (-1)) =
          toZ (divCore (PInt.mk [7] (-1)) (PInt.mk [3] 1)) * toZ (PInt.mk [3] 1)
            + toZ (modCore (PInt.mk [7] (-1)) (PInt.mk [3] 1)) ∧
        ((modCore (PInt.mk [7] (-1)) (PInt.mk [3] 1)).sign = 0 ∨
          (modCore (PInt.mk [7] (-1)) (PInt.mk [3] 1)).sign =
            (PInt.mk [7] (-1)).sign)) :=
  ⟨by decide, by decide, by decide,
    div_mod_euclidean_identity _ _ (by decide) (by decide) (by decide)⟩

/-- C2: refuted — the claim says the Newton loop of `Int::sqrt` exits for
every input `n >= 16`, but on input 24 the iterates alternate between 4 and 5
forever, so the loop `while (cur_sqrt != pre_sqrt)` never exits: for every
iteration budget the loop is still running. -/
theorem sqrt_24_nonterminating :
    toZ (PInt.mk [4, 2] 1) = 24 ∧
      ∀ fuel : ℕ, sqrtI fuel (PInt.mk [4, 2] 1) = .ok none := by
  refine ⟨by decide, fun fuel => ?_⟩
  have hseed : (⟨List.replicate ((PInt.mk [4, 2] 1).digits.length / 2 - 1) 0
      ++ [1], 1⟩ : PInt) = ⟨[1], 1⟩ := rfl
  rw [sqrtI, if_neg (by decide), if_neg (by decide), if_neg (by decide),
    if_neg (by decide), if_neg (by decide), hseed,
    sqrtLoop_24_none fuel ⟨[1], 1⟩ negOneI (by decide)]

/-- C3 (amended): for a negative exponent, `pow` fails with the domain error
exactly when the base is zero, returns `±1` when the base has absolute value
one (the fast path precedes the negative-exponent check), and returns zero
otherwise — the original claim's "otherwise returns zero" is false for
`base = ±1`. -/
theorem pow_negative_exponent (b e m : PInt) (hb : Valid b)
    (he : e.sign = -1) :
    (b.sign = 0 → powI b e m = .error "Error: Math domain error.") ∧
      (¬(b.digits.length = 1 ∧ b.digits.headD 0 = 1) → b.sign ≠ 0 →
        powI b e m = .ok zeroI) ∧
      (b.digits.length = 1 ∧ b.digits.headD 0 = 1 →
        powI b e m = .ok (if b.sign = -1 ∧ isOdd e then negOneI else oneI)) := by
  by_cases hone : b.digits.length = 1 ∧ b.digits.headD 0 = 1
  · refine ⟨?_, fun hc => absurd hone hc, fun _ => by rw [powI, if_pos hone]⟩
    intro h0
    have hbe : b.digits = [] := hb.2.2.1.mp h0
    rw [hbe] at hone
    simp at hone
  · refine ⟨?_, ?_, fun hc => absurd hc hone⟩
    · intro h0
      rw [powI, if_neg hone, if_pos he, if_pos h0]
    · intro _ hbs
      rw [powI, if_neg hone, if_pos he, if_neg hbs]

theorem pow_negative_exponent_witness :
    Valid twoI ∧ (PInt.mk [3] (-1)).sign = -1 ∧
      powI twoI (PInt.mk [3] (-1)) zeroI = .ok zeroI :=
  ⟨by decide, by decide,
    (pow_negative_exponent twoI (PInt.mk [3] (-1)) zeroI (by decide)
      (by decide)).2.1 (by decide) (by decide)⟩

/-- C3 counterexample to the original claim: `pow(1, -3)` returns 1, not 0,
because the `|base| == 1` fast path runs before the negative-exponent check. -/
theorem pow_one_negative_counterexample :
    powI oneI (PInt.mk [3] (-1)) zeroI = .ok oneI ∧
      toZ (PInt.mk [3] (-1)) = -3 ∧ toZ oneI = 1 :=
  ⟨rfl, by decide, by decide⟩

/-- C4 (amended): `gcd(a, b)` divides both `a` and `b`, and on nonzero
operands `lcm(a, b) * gcd(a, b) == a * b` exactly — the original claim's
`abs(a*b)` is false because `gcd` can return a negative value. -/
theorem gcd_divides_lcm_product (a b : PInt) (ha : Valid a) (hb : Valid b) :
    toZ (gcdI a b) ∣ toZ a ∧ toZ (gcdI a b) ∣ toZ b ∧
      (a.sign ≠ 0 → b.sign ≠ 0 →
        lcmI a b = .ok (divCore (mulI a b) (gcdI a b)) ∧
        toZ (divCore (mulI a b) (gcdI a b)) * toZ (gcdI a b)
          = toZ a * toZ b) := by
  obtain ⟨-, hga, hgb, -⟩ := gcdI_spec a b ha hb
  refine ⟨hga, hgb, fun ha0 hb0 => ?_⟩
  obtain ⟨h1, -, h3⟩ := lcmI_spec a b ha hb ha0 hb0
  exact ⟨h1, h3⟩

theorem gcd_divides_lcm_product_witness :
    Valid (PInt.mk [4] 1) ∧ Valid (PInt.mk [6] (-1)) ∧
      toZ (gcdI (PInt.mk [4] 1) (PInt.mk [6] (-1))) ∣ toZ (PInt.mk [4] 1) ∧
      toZ (divCore (mulI (PInt.mk [4] 1) (PInt.mk [6] (-1)))
          (gcdI (PInt.mk [4] 1) (PInt.mk [6] (-1)))) *
        toZ (gcdI (PInt.mk [4] 1) (PInt.mk [6] (-1)))
        = toZ (PInt.mk [4] 1) * toZ (PInt.mk [6] (-1)) :=
  ⟨by decide, by decide,
    (gcd_divides_lcm_product _ _ (by decide) (by decide)).1,
    ((gcd_divides_lcm_product _ _ (by decide) (by decide)).2.2 (by decide)
      (by decide)).2⟩

/-- C4 counterexample to the original claim: at `a = 1, b = -1` the library
gives `gcd = -1` and `lcm = 1`, so `lcm * gcd = -1` while `abs(a*b) = 1`. -/
theorem lcm_gcd_sign_counterexample :
    gcdI oneI negOneI = negOneI ∧ lcmI oneI negOneI = .ok oneI ∧
      toZ oneI * toZ negOneI = -1 ∧ |toZ (mulI oneI negOneI)| = 1 ∧
      toZ oneI * toZ negOneI ≠ |toZ (mulI oneI negOneI)| :=
  ⟨by decide, rfl, by decide, by decide, by decide⟩

/-- C5: every operation — construction from a machine integer, parsing,
negation, addition, subtraction, multiplication, division, remainder,
increment, decrement, random generation — produces a representation
satisfying the invariant: digits in range, no most-significant zero digit,
and sign zero exactly for the empty digit list. -/
theorem operations_preserve_invariant (x y v : PInt) (cs : List Char) (n : ℤ)
    (ds : List ℕ) (t : ℕ) (hx : Valid x) (hy : Valid y)
    (hp : parse cs = .ok v) (hy0 : toZ y ≠ 0) (hds : ∀ d ∈ ds, d ≤ 9)
    (ht1 : 1 ≤ t) (ht9 : t ≤ 9) :
    Valid (ofInt n) ∧ Valid v ∧ Valid (negI x) ∧ Valid (add x y) ∧
      Valid (sub x y) ∧ Valid (mulI x y) ∧ Valid (divCore x y) ∧
      Valid (modCore x y) ∧ Valid (incI x) ∧ Valid (decI x) ∧
      Valid (randomI ds t) := by
  obtain ⟨-, hadd⟩ := add_spec x y hx hy
  obtain ⟨-, hsub⟩ := sub_spec x y hx hy
  obtain ⟨-, hmul⟩ := mulI_spec x y hx hy
  obtain ⟨hdv, hmv, -, -, -, -, -⟩ := divModCore_spec x y hx hy hy0
  obtain ⟨-, hinc⟩ := incI_spec x hx
  obtain ⟨-, hdec⟩ := decI_spec x hx
  exact ⟨ofInt_valid n, parse_valid cs v hp, negI_valid x hx, hadd, hsub,
    hmul, hdv, hmv, hinc, hdec, randomI_valid ds t hds ht1 ht9⟩

theorem operations_preserve_invariant_witness :
    Valid (PInt.mk [5] 1) ∧ Valid (PInt.mk [3] (-1)) ∧
      parse ['4', '2'] = .ok (PInt.mk [2, 4] 1) ∧
      toZ (PInt.mk [3] (-1)) ≠ 0 ∧ (∀ d ∈ [0, 0], d ≤ 9) ∧
      (1 : ℕ) ≤ 5 ∧ (5 : ℕ) ≤ 9 ∧
      (Valid (ofInt (-37)) ∧ Valid (PInt.mk [2, 4] 1) ∧
        Valid (negI (PInt.mk [5] 1)) ∧
        Valid (add (PInt.mk [5] 1) (PInt.mk [3] (-1))) ∧
        Valid (sub (PInt.mk [5] 1) (PInt.mk [3] (-1))) ∧
        Valid (mulI (PInt.mk [5] 1) (PInt.mk [3] (-1))) ∧
        Valid (divCore (PInt.mk [5] 1) (PInt.mk [3] (-1))) ∧
        Valid (modCore (PInt.mk [5] 1) (PInt.mk [3] (-1))) ∧
        Valid (incI (PInt.mk [5] 1)) ∧ Valid (decI (PInt.mk [5] 1)) ∧
        Valid (randomI [0, 0] 5)) :=
  ⟨by decide, by decide, rfl, by decide, by decide, by decide, by decide,
    operations_preserve_invariant (PInt.mk [5] 1) (PInt.mk [3] (-1))
      (PInt.mk [2, 4] 1) ['4', '2'] (-37) [0, 0] 5 (by decide) (by decide)
      rfl (by decide) (by decide) (by decide) (by decide)⟩

/-- C6: parsing the canonical rendering of any valid value reproduces that
value exactly; every successful parse is valid and re-parses from its own
rendering; and the literal `"+007"` parses to 7, which renders as `"7"`. -/
theorem parse_render_round_trip (x : PInt) (cs : List Char) (v : PInt)
    (hx : Valid x) (hcs : parse cs = .ok v) :
    parse (render x) = .ok x ∧ Valid v ∧ parse (render v) = .ok v ∧
      parse ['+', '0', '0', '7'] = .ok (PInt.mk [7] 1) ∧
      render (PInt.mk [7] 1) = ['7'] := by
  have hv := parse_valid cs v hcs
  exact ⟨parse_render x hx, hv, parse_render v hv, rfl, by decide⟩

theorem parse_render_round_trip_witness :
    Valid (PInt.mk [3, 1] (-1)) ∧
      parse ['-', '0', '1', '3'] = .ok (PInt.mk [3, 1] (-1)) ∧
      parse (render (PInt.mk [3, 1] (-1))) = .ok (PInt.mk [3, 1] (-1)) :=
  ⟨by decide, rfl,
    (parse_render_round_trip (PInt.mk [3, 1] (-1)) ['-', '0', '1', '3']
      (PInt.mk [3, 1] (-1)) (by decide) rfl).1⟩

/-- C7: in division with a nonzero divisor (and a dividend at least as long
as the divisor, so the quotient loop runs), every quotient digit the loop
records is at most 9 — the inner subtraction loop executes at most 9 times
per position. -/
theorem quotient_digit_bound (x y : PInt) (hx : Valid x) (hy : Valid y)
    (hy0 : toZ y ≠ 0) (hlen : ¬x.digits.length < y.digits.length) :
    ∀ d ∈ divQuotientDigits x y, d ≤ 9 :=
  divQuotientDigits_le x y hx hy hy0 hlen

theorem quotient_digit_bound_witness :
    Valid (PInt.mk [0, 0, 1] 1) ∧ Valid (PInt.mk [7] 1) ∧
      toZ (PInt.mk [7] 1) ≠ 0 ∧
      ¬(PInt.mk [0, 0, 1] 1).digits.length < (PInt.mk [7] 1).digits.length ∧
      ∀ d ∈ divQuotientDigits (PInt.mk [0, 0, 1] 1) (PInt.mk [7] 1), d ≤ 9 :=
  ⟨by decide, by decide, by decide, by decide,
    quotient_digit_bound _ _ (by decide) (by decide) (by decide) (by decide)⟩

/-- C8: the fast-path increment equals addition of one and the fast-path
decrement equals subtraction of one; zero transitions directly to `1`
(resp. `-1`), and decrementing 1 or incrementing -1 gives the canonical zero
with the sign reset. -/
theorem inc_dec_refine_add_sub (a : PInt) (ha : Valid a) :
    incI a = add a oneI ∧ decI a = sub a oneI ∧ incI zeroI = oneI ∧
      decI zeroI = negOneI ∧ decI oneI = zeroI ∧ incI negOneI = zeroI := by
  have hone : Valid oneI := by decide
  obtain ⟨hiv, hivd⟩ := incI_spec a ha
  obtain ⟨hav, havd⟩ := add_spec a oneI ha hone
  obtain ⟨hdv, hdvd⟩ := decI_spec a ha
  obtain ⟨hsv, hsvd⟩ := sub_spec a oneI ha hone
  have h1 : toZ oneI = 1 := by decide
  refine ⟨toZ_inj _ _ hivd havd ?_, toZ_inj _ _ hdvd hsvd ?_, by decide,
    by decide, by decide, by decide⟩
  · rw [hiv, hav, h1]
  · rw [hdv, hsv, h1]

theorem inc_dec_refine_add_sub_witness :
    Valid (PInt.mk [9, 9] 1) ∧
      incI (PInt.mk [9, 9] 1) = add (PInt.mk [9, 9] 1) oneI :=
  ⟨by decide, (inc_dec_refine_add_sub _ (by decide)).1⟩

/-- C9: for all valid values `a, b` with `b != 0`, the remainder's magnitude
is strictly smaller than the divisor's: `abs(a % b) < abs(b)`. -/
theorem remainder_magnitude_lt_divisor (a b : PInt) (ha : Valid a)
    (hb : Valid b) (hb0 : toZ b ≠ 0) :
    modI a b = .ok (modCore a b) ∧ |toZ (modCore a b)| < |toZ b| := by
  have hbs : b.sign ≠ 0 := fun h => hb0 (toZ_zero_of b hb h)
  obtain ⟨-, -, -, hlt, -, -, -⟩ := divModCore_spec a b ha hb hb0
  exact ⟨by rw [modI, if_neg hbs], hlt⟩

theorem remainder_magnitude_lt_divisor_witness :
    Valid (PInt.mk [5] 1) ∧ Valid (PInt.mk [3] (-1)) ∧
      toZ (PInt.mk [3] (-1)) ≠ 0 ∧
      |toZ (modCore (PInt.mk [5] 1) (PInt.mk [3] (-1)))| <
        |toZ (PInt.mk [3] (-1))| :=
  ⟨by decide, by decide, by decide,
    (remainder_magnitude_lt_divisor _ _ (by decide) (by decide)
      (by decide)).2⟩

/-- C10: the standard-library hash specialization is consistent with
`operator==` — structurally equal values (same sign and digit sequence) hash
alike, for any underlying `std::hash<signed char>` function. -/
theorem hash_consistent_with_eq (h : ℤ → ℕ) (a b : PInt)
    (he : eqI a b = true) : hashInt h a = hashInt h b := by
  rw [eqI_iff] at he
  rw [he]

theorem hash_consistent_with_eq_witness :
    eqI (PInt.mk [2, 1] 1) (PInt.mk [2, 1] 1) = true ∧
      hashInt Int.natAbs (PInt.mk [2, 1] 1) =
        hashInt Int.natAbs (PInt.mk [2, 1] 1) :=
  ⟨by decide, hash_consistent_with_eq Int.natAbs _ _ (by decide)⟩

end Pyincpp
